import Mathlib

/-!
Verification of the folder-tree-viewer core (`folder_tree_viewer.py`) against
its specification.  The scanner, the size formatter, the tree-text→JSON parser
and the tree-text→CSV flattener are shallowly embedded below; theorems at the
end settle the specification claims.

Conventions of the embedding:
* Python strings are modelled as `String` (names) or `List Char` (lines being
  parsed); Python's code-point indexing/slicing matches `List Char` operations.
* Byte counts are natural numbers; Python's float arithmetic inside
  `_format_size` is modelled with exact rationals (all values the program
  divides are dyadic, where binary floats and rationals agree).
* Filesystem state is an explicit inductive tree; `os.listdir` failure modes
  (PermissionError / other exceptions) are part of the tree.
-/

namespace FolderTreeViewer

/-! ### Size formatting (`FolderScanner._format_size`) -/

/-- `size_names = ["B", "KB", "MB", "GB", "TB"]` from `_format_size`. -/
def sizeNames : List String := ["B", "KB", "MB", "GB", "TB"]

/-- Round-half-even on rationals, the rounding used by Python's `f"{x:.2f}"`
(for the dyadic values produced by `_format_size` the binary float and the
rational agree). -/
def roundHalfEven (q : ℚ) : ℤ :=
  let f : ℤ := q.floor
  let r : ℚ := q - f
  if r < 1/2 then f
  else if 1/2 < r then f + 1
  else if f % 2 = 0 then f else f + 1

/-- Left-pad the fractional part to two digits. -/
def pad2 (r : ℕ) : String :=
  if r < 10 then "0" ++ toString r else toString r

/-- Python's `f"{x:.2f}"` on a nonnegative dyadic rational. -/
def fmt2 (q : ℚ) : String :=
  let m : ℕ := (roundHalfEven (q * 100)).toNat
  toString (m / 100) ++ "." ++ pad2 (m % 100)

/-- The `while size_bytes >= 1024 and i < len(size_names) - 1` loop of the
`auto` branch.  The loop runs at most four times (the index is bounded by 4),
so a fuel of 4 makes the recursion total without changing its behaviour. -/
def autoLoop : ℕ → ℚ → ℕ → ℚ × ℕ
  | 0, q, i => (q, i)
  | fuel + 1, q, i =>
    if 1024 ≤ q ∧ i < 4 then autoLoop fuel (q / 1024) (i + 1) else (q, i)

/-- The `for _ in range(index): size_bytes /= 1024` loop of the explicit-unit
branch. -/
def divIter : ℕ → ℚ → ℚ
  | 0, q => q
  | k + 1, q => divIter k (q / 1024)

/-- `FolderScanner._format_size`.  `none` models the `ValueError` raised by
`size_names.index(format_type)` for an unknown unit. -/
def formatSize (sizeBytes : ℕ) (formatType : String) : Option String :=
  if formatType = "bytes" then some (toString sizeBytes ++ " B")
  else if sizeBytes = 0 then some "0 B"
  else if formatType = "auto" then
    let p := autoLoop 4 (sizeBytes : ℚ) 0
    some (fmt2 p.1 ++ " " ++ sizeNames.getD p.2 "TB")
  else
    match sizeNames.indexOf? formatType with
    | some idx => some (fmt2 (divIter idx (sizeBytes : ℚ)) ++ " " ++ formatType)
    | none => none

/-! ### Python string primitives

The parsing routines index Python strings by code points; they are embedded
here as operations on `List Char`.  Lines handed to the parsers come from
`text.split("\n")` and therefore contain no newline character. -/

/-- A Python string viewed as its code points. -/
abbrev Chars := List Char

/-- Python `str.strip()` with default (whitespace) separators. -/
def pyStrip (s : Chars) : Chars :=
  ((s.dropWhile Char.isWhitespace).reverse.dropWhile Char.isWhitespace).reverse

/-- Python `str.rstrip("/")`: drop every trailing `/`. -/
def rstripSlash (s : Chars) : Chars :=
  (s.reverse.dropWhile (· = '/')).reverse

/-- `len(re.match(r'^(\s*)', line).group(1))`: width of the leading
whitespace run. -/
def leadingWs (s : Chars) : ℕ := (s.takeWhile Char.isWhitespace).length

/-- Whether `re.search(r'\s+\[.*\]$', s)` matches at exactly this start
position: a nonempty whitespace run, immediately followed by `[`, with the
final character of the string a `]` and no newline in between (`.` does not
match a newline). -/
def sizeTailHere (s : Chars) : Bool :=
  let w := s.takeWhile Char.isWhitespace
  match s.drop w.length with
  | '[' :: tl =>
    !w.isEmpty && !tl.isEmpty && (tl.getLast? == some ']')
      && tl.dropLast.all (· ≠ '\n')
  | _ => false

/-- Start index of the leftmost match of `\s+\[.*\]$`, the search order of
`re.search`. -/
def sizeMatchStart : Chars → Option ℕ
  | [] => none
  | c :: tl =>
    if sizeTailHere (c :: tl) then some 0 else (sizeMatchStart tl).map (· + 1)

/-- `item_name[:-(len(size_match.group(0)))]` — truncate the matched size
suffix (the match always extends to the end of the string). -/
def stripSizeTail (s : Chars) : Chars :=
  match sizeMatchStart s with
  | some p => s.take p
  | none => s

/-- Connector glyphs of the rendering (`"├── "`, `"└── "`, `"│   "`,
four-space blank continuation). -/
def connBranch : Chars := "├── ".data

/-- Corner connector `"└── "`. -/
def connCorner : Chars := "└── ".data

/-- Vertical-bar continuation segment `"│   "`. -/
def barSeg : Chars := "│   ".data

/-- Blank continuation segment (four spaces). -/
def blankSeg : Chars := "    ".data

/-! ### `_parse_tree_to_json` -/

/-- A node dictionary produced by `_parse_tree_to_json`: keys `"name"` and
`"type"` always, key `"children"` present exactly when the code adds it. -/
inductive JNode where
  | mk (name : Chars) (type : String) (children : Option (List JNode))

/-- The `"name"` value of a node. -/
def JNode.nameOf : JNode → Chars
  | .mk n _ _ => n

/-- The `"type"` value of a node. -/
def JNode.typeOf : JNode → String
  | .mk _ t _ => t

/-- The `"children"` value of a node, when the key is present. -/
def JNode.childrenOf : JNode → Option (List JNode)
  | .mk _ _ c => c

/-- A parser stack frame: the container list being filled and its depth
threshold, mirroring the `(current_list, depth)` pairs of the Python stack. -/
abbrev Frame := List JNode × ℕ

/-- Overwrite the `"children"` entry of the final node of a list: the
functional account of the Python parser mutating, through the stack's
aliases, the children list of the directory that pushed the popped frame. -/
def setLastChildren : List JNode → List JNode → List JNode
  | [], _ => []
  | [JNode.mk n t _], cs => [JNode.mk n t (some cs)]
  | n :: rest, cs => n :: setLastChildren rest cs

/-- Pop one frame: the popped container is written into the last node of the
frame below. -/
def mergeTop (top : Frame) (next : Frame) : Frame :=
  (setLastChildren next.1 top.1, next.2)

/-- `while len(stack) > 1 and indent <= stack[-1][1]: stack.pop()`.  The
stack is kept as `(top, rest)` with the bottom (result) frame last. -/
def popFrames (indent : ℕ) (top : Frame) : List Frame → Frame × List Frame
  | [] => (top, [])
  | next :: rest =>
    if indent ≤ top.2 then popFrames indent (mergeTop top next) rest
    else (top, next :: rest)

/-- Fold all remaining frames into the bottom container at end of parse
(the Python mutations have already happened by then; functionally they are
realised here). -/
def collapse : Frame → List Frame → List JNode
  | top, [] => top.1
  | top, next :: rest => collapse (mergeTop top next) rest

/-- One line of the `_parse_tree_to_json` loop, acting on the frame stack. -/
def jsonLineStep (st : Frame × List Frame) (line : Chars) : Frame × List Frame :=
  if pyStrip line = [] then st
  else
    let indent := leadingWs line
    let clean := pyStrip line
    let item? : Option Chars :=
      if connBranch.isPrefixOf clean then some (clean.drop 4)
      else if connCorner.isPrefixOf clean then some (clean.drop 4)
      else if barSeg.isPrefixOf clean then none
      else some clean
    match item? with
    | none => st
    | some item0 =>
      let isDir : Bool := item0.getLast? == some '/'
      let item1 := stripSizeTail item0
      let node : JNode :=
        .mk (rstripSlash item1) (if isDir then "directory" else "file")
          (if isDir then some [] else none)
      let popped := popFrames indent st.1 st.2
      let top' : Frame := (popped.1.1 ++ [node], popped.1.2)
      if isDir then (([], indent + 4), top' :: popped.2)
      else (top', popped.2)

/-- The header skip: everything up to and including the first line starting
with `"----"` plus one following line is dropped; with no separator the whole
input is parsed. -/
def skipHeader (lines : List Chars) : List Chars :=
  match lines.findIdx? (fun l => "----".data.isPrefixOf l) with
  | some i => lines.drop (i + 2)
  | none => lines

/-- `FolderTreeViewer._parse_tree_to_json`. -/
def parseTreeToJson (lines : List Chars) : List JNode :=
  let st := (skipHeader lines).foldl jsonLineStep (([], 0), [])
  collapse st.1 st.2

mutual
/-- Structural well-formedness of one parsed node: the `"children"` key is
present iff the type is `"directory"`, absent iff it is `"file"`, recursively. -/
def nodeOK : JNode → Bool
  | .mk _ t none => t == "file"
  | .mk _ t (some cs) => t == "directory" && nodesOK cs
/-- `nodeOK` for every node of a list. -/
def nodesOK : List JNode → Bool
  | [] => true
  | n :: ns => nodeOK n && nodesOK ns
end

/-- A node list whose final node is a directory node (its `"children"` key
present): the shape of every non-top parser frame's container. -/
def endsWithDir (ns : List JNode) : Prop :=
  ∃ nm cs, ns.getLast? = some (JNode.mk nm "directory" (some cs))

/-- Parser-stack invariant: every container holds well-shaped nodes, and
every container below the top ends with the directory node that pushed the
frame above it. -/
def stackOK (top : Frame) (rest : List Frame) : Prop :=
  nodesOK top.1 = true ∧ ∀ f ∈ rest, nodesOK f.1 = true ∧ endsWithDir f.1

/-! ### CSV export (`export_tree`, `format_type == "csv"`) -/

/-- One data row of the CSV export (the fixed header row
`Type,Name,Path,Size,Modified` is emitted separately by the code).  Paths are
modelled as lists of components: `os.path.join` appends components and
`os.path.dirname` drops the last one. -/
structure CsvRow where
  type : String
  name : Chars
  path : List Chars
  size : Chars
  modified : Chars
deriving DecidableEq

/-- The header-line skip of the CSV loop. -/
def csvHeaderSkip (line : Chars) : Bool :=
  "Folder Tree:".data.isPrefixOf line || "Generated:".data.isPrefixOf line
    || "----".data.isPrefixOf line

/-- Start index of the leftmost match of `\[(.*?)\]$` under `re.search`:
the first `[` whose bracketed span reaches the final `]` of the string with
no newline inside. -/
def csvSizeMatchStart : Chars → Option ℕ
  | [] => none
  | '[' :: tl =>
    if !tl.isEmpty && (tl.getLast? == some ']') && tl.dropLast.all (· ≠ '\n')
    then some 0 else (csvSizeMatchStart tl).map (· + 1)
  | _ :: tl => (csvSizeMatchStart tl).map (· + 1)

/-- One line of the CSV loop.  State: `(current_path, rows)`.  `mtime`
abstracts the `os.path.exists`/`os.path.getmtime` lookup of the `Modified`
column (empty string when the path is gone). -/
def csvLineStep (root : List Chars) (mtime : List Chars → Chars)
    (st : List Chars × List CsvRow) (line : Chars) : List Chars × List CsvRow :=
  if pyStrip line = [] then st
  else if csvHeaderSkip line then st
  else
    let depth := leadingWs line / 4
    let clean := pyStrip line
    if connBranch.isPrefixOf clean || connCorner.isPrefixOf clean then
      let item0 := clean.drop 4
      let isDir : Bool := item0.getLast? == some '/'
      let item1 := if isDir then item0.dropLast else item0
      let newPath := st.1.take depth ++ [item1]
      let sizeName : Chars × Chars :=
        match csvSizeMatchStart item1 with
        | some p => ((item1.drop (p + 1)).dropLast, pyStrip (item1.take p))
        | none => ([], item1)
      let fullPath := root ++ newPath.dropLast ++ [sizeName.2]
      let row : CsvRow :=
        ⟨if isDir then "Directory" else "File", sizeName.2, fullPath.dropLast,
          sizeName.1, mtime fullPath⟩
      (newPath, st.2 ++ [row])
    else st

/-- The CSV conversion loop of `export_tree`: the data rows, in order. -/
def exportCsvRows (root : List Chars) (mtime : List Chars → Chars)
    (lines : List Chars) : List CsvRow :=
  (lines.foldl (csvLineStep root mtime) ([], [])).2

/-- Modelled from the spec, amended: one line of the path-reconstruction
reference — the stack is truncated to the line's depth, the entry's (raw)
name is pushed, and the recorded path is the join of the root with the stack
entries up to but EXCLUDING the current entry. -/
def csvPathStep (root : List Chars) (st : List Chars × List (List Chars))
    (line : Chars) : List Chars × List (List Chars) :=
  if pyStrip line = [] then st
  else if csvHeaderSkip line then st
  else
    let depth := leadingWs line / 4
    let clean := pyStrip line
    if connBranch.isPrefixOf clean || connCorner.isPrefixOf clean then
      let item0 := clean.drop 4
      let isDir : Bool := item0.getLast? == some '/'
      let item1 := if isDir then item0.dropLast else item0
      let stack' := st.1.take depth ++ [item1]
      (stack', st.2 ++ [root ++ stack'.dropLast])
    else st

/-- Modelled from the spec, amended: the expected path column of each emitted
row, per `csvPathStep`. -/
def csvPathsSpec (root : List Chars) (lines : List Chars) : List (List Chars) :=
  (lines.foldl (csvPathStep root) ([], [])).2

/-! ### Filesystem model and the scanner (`FolderScanner._scan_directory`)

Directory listings have pairwise distinct names on a real filesystem, so
sorting name-keyed pairs below coincides with Python's sorting of the name
lists followed by the path re-join. -/

/-- A filesystem entry as the scanner observes it: a file with its byte
size, or a directory together with the outcome `os.listdir` has on it
(`dirDenied`: `PermissionError`; `dirErrored`: any other exception carrying
`str(e)`). -/
inductive Entry where
  | file (name : String) (size : ℕ)
  | dir (name : String) (items : List Entry)
  | dirDenied (name : String)
  | dirErrored (name : String) (msg : String)

/-- The outcome of `os.listdir` on one directory path. -/
inductive Sub where
  | ok (items : List Entry)
  | denied
  | errored (msg : String)

/-- The `os.path.isdir` partition: directories keep their listing outcome. -/
def entryDir? : Entry → Option (String × Sub)
  | .file _ _ => none
  | .dir n its => some (n, .ok its)
  | .dirDenied n => some (n, .denied)
  | .dirErrored n m => some (n, .errored m)

/-- The file partition (name and `os.path.getsize` result). -/
def entryFile? : Entry → Option (String × ℕ)
  | .file n s => some (n, s)
  | _ => none

/-- `_get_dir_size` summand: byte size contributed by an entry to the
`os.walk` sum; `os.walk` silently skips unlistable directories. -/
def entrySize : Entry → ℕ
  | .file _ s => s
  | .dir _ its => (its.attach.map (fun x => entrySize x.1)).sum
  | .dirDenied _ => 0
  | .dirErrored _ _ => 0
decreasing_by
  have := List.sizeOf_lt_of_mem x.2
  simp only [Entry.dir.sizeOf_spec]
  omega

/-- `_get_dir_size` on a directory path with the given listing outcome. -/
def subSize : Sub → ℕ
  | .ok items => (items.map entrySize).sum
  | .denied => 0
  | .errored _ => 0

/-- The options of one scan invocation. -/
structure ScanOpts where
  includeFiles : Bool
  maxDepth : Option ℕ
  showSize : Bool
  sizeFormat : String

/-- One appended line of `_scan_directory`, in structured form.  `depth` is
the `current_depth` parameter at the append site (the prefix always holds
`depth` four-column segments). -/
inductive TreeLine where
  | entry (pfx : Chars) (isLast : Bool) (name : String) (isDir : Bool)
      (sizeStr : Chars) (depth : ℕ)
  | marker (pfx : Chars) (text : Chars) (depth : ℕ)

/-- The depth annotation of a line. -/
def lineDepth : TreeLine → ℕ
  | .entry _ _ _ _ _ d => d
  | .marker _ _ d => d

/-- Whether the line got the corner connector `└── ` (markers always use the
branch connector). -/
def lineIsLast : TreeLine → Bool
  | .entry _ b _ _ _ _ => b
  | .marker _ _ _ => false

/-- Whether the line is a directory entry (rendered with a trailing `/`). -/
def lineIsDir : TreeLine → Bool
  | .entry _ _ _ b _ _ => b
  | .marker _ _ _ => false

/-- The entry name of a line (markers have none; they yield their text). -/
def lineName : TreeLine → String
  | .entry _ _ n _ _ _ => n
  | .marker _ t _ => String.mk t

/-- The exact text of a line as Python builds it with f-strings. -/
def renderLine : TreeLine → Chars
  | .entry pfx isLast name isDir sz _ =>
    pfx ++ (if isLast then connCorner else connBranch) ++ name.data
      ++ (if isDir then ['/'] else []) ++ sz
  | .marker pfx text _ => pfx ++ connBranch ++ text

/-- The `size_str` computation (empty without `show_size`; the
`except` fallback `" [size error]"` corresponds to `_format_size` raising
`ValueError` on an unknown unit). -/
def sizeAnnot (o : ScanOpts) (sz : ℕ) : Chars :=
  if o.showSize then
    match formatSize sz o.sizeFormat with
    | some s => (" [" ++ s ++ "]").data
    | none => " [size error]".data
  else []

/-- Scan-thread state: the shared `result` list plus a count of
`stop_event.is_set()` reads, which serves as the clock against which the
cancellation instant is expressed. -/
structure ScanSt where
  lines : List TreeLine
  checks : ℕ

/-- One read of `stop_event.is_set()`: the event is set from the `stopAt`-th
read onwards (`none`: never set). -/
def checkStop (stopAt : Option ℕ) (st : ScanSt) : Bool × ScanSt :=
  (match stopAt with
   | none => false
   | some k => decide (k ≤ st.checks),
   { st with checks := st.checks + 1 })

/-- `result.append(...)`. -/
def pushLine (st : ScanSt) (l : TreeLine) : ScanSt :=
  { st with lines := st.lines ++ [l] }

/-- The value a `stop_event.is_set()` read returns at clock `c`. -/
def stopBit (stopAt : Option ℕ) (c : ℕ) : Bool :=
  match stopAt with
  | none => false
  | some k => decide (k ≤ c)

/-- `max_depth is not None and current_depth > max_depth`. -/
def depthExceeded (maxD : Option ℕ) (d : ℕ) : Bool :=
  match maxD with
  | none => false
  | some m => decide (m < d)

/-- The sort order `dirs.sort()` / `files.sort()`: lexicographic on names. -/
def pairLe (a b : String × Sub) : Prop := a.1 ≤ b.1

instance : DecidableRel pairLe := fun a b => inferInstanceAs (Decidable (a.1 ≤ b.1))

instance : IsTotal (String × Sub) pairLe := ⟨fun a b => le_total a.1 b.1⟩

instance : IsTrans (String × Sub) pairLe := ⟨fun _ _ _ h h' => le_trans h h'⟩

/-- Name order on the file partition. -/
def filePairLe (a b : String × ℕ) : Prop := a.1 ≤ b.1

instance : DecidableRel filePairLe := fun a b => inferInstanceAs (Decidable (a.1 ≤ b.1))

instance : IsTotal (String × ℕ) filePairLe := ⟨fun a b => le_total a.1 b.1⟩

instance : IsTrans (String × ℕ) filePairLe := ⟨fun _ _ _ h h' => le_trans h h'⟩

/-- The `for` loop over the (sorted) file partition, with its per-iteration
cancellation check. -/
def scanFiles (stopAt : Option ℕ) (o : ScanOpts) :
    List (String × ℕ) → Chars → ℕ → ScanSt → ScanSt
  | [], _, _, st => st
  | (n, sz) :: rest, pfx, d, st =>
    let c := checkStop stopAt st
    if c.1 then c.2
    else
      let st2 := pushLine c.2 (.entry pfx rest.isEmpty n false (sizeAnnot o sz) d)
      scanFiles stopAt o rest pfx d st2

/-- The recursion skeleton of `_scan_directory`: either the body on a
directory's listing outcome, or the `for` loop over the remaining (sorted)
directory partition. -/
inductive Job where
  | sub (s : Sub)
  | dirs (ds : List (String × Sub)) (filesEmpty : Bool)

/-- Termination weight of an entry. -/
def entryW : Entry → ℕ
  | .file _ _ => 1
  | .dir _ its => 2 + (its.attach.map (fun x => entryW x.1)).sum + its.length
  | .dirDenied _ => 1
  | .dirErrored _ _ => 1
decreasing_by
  have := List.sizeOf_lt_of_mem x.2
  simp only [Entry.dir.sizeOf_spec]
  omega

/-- Termination weight of a directory listing. -/
def listW (l : List Entry) : ℕ := (l.map entryW).sum + l.length

/-- Termination weight of a listing outcome. -/
def subW : Sub → ℕ
  | .ok items => 1 + listW items
  | .denied => 0
  | .errored _ => 0

/-- Termination weight of a directory work list. -/
def dsW (ds : List (String × Sub)) : ℕ := (ds.map (fun p => subW p.2)).sum

/-- Termination weight of a job. -/
def jobW : Job → ℕ
  | .sub s => subW s
  | .dirs ds _ => dsW ds + ds.length

/-- `_scan_directory(path, result, prefix, include_files, current_depth,
max_depth, show_size, size_format)`: the `.sub` case is the function body on
the listing outcome of `path`; the `.dirs` case is its loop over the sorted
directory partition (the sorted file loop follows it). -/
def scanGo (stopAt : Option ℕ) (o : ScanOpts) :
    Job → Chars → ℕ → ScanSt → ScanSt
  | .sub s, pfx, d, st =>
    if (checkStop stopAt st).1 then (checkStop stopAt st).2
    else if depthExceeded o.maxDepth d then (checkStop stopAt st).2
    else
      match s with
      | .denied => pushLine (checkStop stopAt st).2 (.marker pfx "[Access Denied]".data d)
      | .errored m =>
        pushLine (checkStop stopAt st).2 (.marker pfx ("[Error: " ++ m ++ "]").data d)
      | .ok items =>
        if o.includeFiles then
          scanFiles stopAt o ((items.filterMap entryFile?).insertionSort filePairLe)
            pfx d
            (scanGo stopAt o
              (.dirs ((items.filterMap entryDir?).insertionSort pairLe)
                ((items.filterMap entryFile?).insertionSort filePairLe).isEmpty)
              pfx d (checkStop stopAt st).2)
        else
          scanGo stopAt o
            (.dirs ((items.filterMap entryDir?).insertionSort pairLe)
              ([] : List (String × ℕ)).isEmpty)
            pfx d (checkStop stopAt st).2
  | .dirs [] _, _, _, st => st
  | .dirs ((n, sub) :: rest) fe, pfx, d, st =>
    if (checkStop stopAt st).1 then (checkStop stopAt st).2
    else
      scanGo stopAt o (.dirs rest fe) pfx d
        (scanGo stopAt o (.sub sub)
          (pfx ++ (if rest.isEmpty && fe then blankSeg else barSeg)) (d + 1)
          (pushLine (checkStop stopAt st).2
            (.entry pfx (rest.isEmpty && fe) n true (sizeAnnot o (subSize sub)) d)))
termination_by job _ _ _ => jobW job
decreasing_by
  · simp only [jobW, subW]
    have hperm : List.Perm ((items.filterMap entryDir?).insertionSort pairLe)
        (items.filterMap entryDir?) := List.perm_insertionSort _ _
    have hsum : dsW ((items.filterMap entryDir?).insertionSort pairLe)
        = dsW (items.filterMap entryDir?) := List.Perm.sum_eq (hperm.map _)
    have hlen : ((items.filterMap entryDir?).insertionSort pairLe).length
        = (items.filterMap entryDir?).length := hperm.length_eq
    have hbound : ∀ l : List Entry,
        dsW (l.filterMap entryDir?) + (l.filterMap entryDir?).length
          ≤ (l.map entryW).sum := by
      intro l
      induction l with
      | nil => simp [dsW]
      | cons e t ih =>
        cases e with
        | file nm s =>
          simp only [List.filterMap_cons, entryDir?, List.map_cons, List.sum_cons, entryW]
          omega
        | dir nm its =>
          simp only [List.filterMap_cons, entryDir?, List.map_cons, List.sum_cons]
          have he : entryW (.dir nm its) = 2 + listW its := by
            rw [entryW, listW]
            simp
            omega
          have hd : dsW ((nm, Sub.ok its) :: t.filterMap entryDir?)
              = 1 + listW its + dsW (t.filterMap entryDir?) := by
            simp [dsW, subW]
          rw [he, hd, List.length_cons]
          omega
        | dirDenied nm =>
          simp only [List.filterMap_cons, entryDir?, List.map_cons, List.sum_cons]
          have hd : dsW ((nm, Sub.denied) :: t.filterMap entryDir?)
              = dsW (t.filterMap entryDir?) := by
            simp [dsW, subW]
          rw [hd, List.length_cons, entryW]
          omega
        | dirErrored nm msg =>
          simp only [List.filterMap_cons, entryDir?, List.map_cons, List.sum_cons]
          have hd : dsW ((nm, Sub.errored msg) :: t.filterMap entryDir?)
              = dsW (t.filterMap entryDir?) := by
            simp [dsW, subW]
          rw [hd, List.length_cons, entryW]
          omega
    rw [hsum, hlen, listW]
    have := hbound items
    omega
  · simp only [jobW, subW]
    have hperm : List.Perm ((items.filterMap entryDir?).insertionSort pairLe)
        (items.filterMap entryDir?) := List.perm_insertionSort _ _
    have hsum : dsW ((items.filterMap entryDir?).insertionSort pairLe)
        = dsW (items.filterMap entryDir?) := List.Perm.sum_eq (hperm.map _)
    have hlen : ((items.filterMap entryDir?).insertionSort pairLe).length
        = (items.filterMap entryDir?).length := hperm.length_eq
    have hbound : ∀ l : List Entry,
        dsW (l.filterMap entryDir?) + (l.filterMap entryDir?).length
          ≤ (l.map entryW).sum := by
      intro l
      induction l with
      | nil => simp [dsW]
      | cons e t ih =>
        cases e with
        | file nm s =>
          simp only [List.filterMap_cons, entryDir?, List.map_cons, List.sum_cons, entryW]
          omega
        | dir nm its =>
          simp only [List.filterMap_cons, entryDir?, List.map_cons, List.sum_cons]
          have he : entryW (.dir nm its) = 2 + listW its := by
            rw [entryW, listW]
            simp
            omega
          have hd : dsW ((nm, Sub.ok its) :: t.filterMap entryDir?)
              = 1 + listW its + dsW (t.filterMap entryDir?) := by
            simp [dsW, subW]
          rw [he, hd, List.length_cons]
          omega
        | dirDenied nm =>
          simp only [List.filterMap_cons, entryDir?, List.map_cons, List.sum_cons]
          have hd : dsW ((nm, Sub.denied) :: t.filterMap entryDir?)
              = dsW (t.filterMap entryDir?) := by
            simp [dsW, subW]
          rw [hd, List.length_cons, entryW]
          omega
        | dirErrored nm msg =>
          simp only [List.filterMap_cons, entryDir?, List.map_cons, List.sum_cons]
          have hd : dsW ((nm, Sub.errored msg) :: t.filterMap entryDir?)
              = dsW (t.filterMap entryDir?) := by
            simp [dsW, subW]
          rw [hd, List.length_cons, entryW]
          omega
    rw [hsum, hlen, listW]
    have := hbound items
    omega
  · simp only [jobW]
    have : dsW ((n, sub) :: rest) = subW sub + dsW rest := by simp [dsW]
    rw [this]
    simp only [List.length_cons]
    omega
  · simp only [jobW]
    have : dsW ((n, sub) :: rest) = subW sub + dsW rest := by simp [dsW]
    rw [this]
    simp only [List.length_cons]
    omega

/-- The lines emitted by a scan of a directory with listing outcome `s`,
started at prefix `pfx` and depth `d`, with no cancellation. -/
def scanLines (o : ScanOpts) (s : Sub) (pfx : Chars) (d : ℕ) : List TreeLine :=
  (scanGo none o (.sub s) pfx d ⟨[], 0⟩).lines

/-- The entry lines the file loop produces, in order, for one parent. -/
def fileLines (o : ScanOpts) (pfx : Chars) (d : ℕ) :
    List (String × ℕ) → List TreeLine
  | [] => []
  | (n, sz) :: rest =>
    .entry pfx rest.isEmpty n false (sizeAnnot o sz) d :: fileLines o pfx d rest

/-- The entry lines the directory loop produces, in order, for one parent
(children's recursive lines excluded). -/
def dirLines (o : ScanOpts) (pfx : Chars) (d : ℕ) :
    List (String × Sub) → Bool → List TreeLine
  | [], _ => []
  | (n, sub) :: rest, fe =>
    .entry pfx (rest.isEmpty && fe) n true (sizeAnnot o (subSize sub)) d
      :: dirLines o pfx d rest fe

/-- The lines a job emits under an uncancelled run, started at clock `c`. -/
def emitted (o : ScanOpts) (j : Job) (pfx : Chars) (d : ℕ) (c : ℕ) : List TreeLine :=
  (scanGo none o j pfx d ⟨[], c⟩).lines

/-- The lines the file loop emits under an uncancelled run. -/
def filesEmitted (o : ScanOpts) (fls : List (String × ℕ)) (pfx : Chars) (d : ℕ) :
    List TreeLine :=
  (scanFiles none o fls pfx d ⟨[], 0⟩).lines

/-- The result of `_scan_folder_thread`: the ordered `status_callback`
messages, the argument of the result `callback` if it was invoked, and the
final walk state. -/
structure ThreadOut where
  statuses : List String
  callbackResult : Option String
  finalSt : ScanSt

/-- `"\n".join(result)` over the rendered lines. -/
def renderText (lines : List TreeLine) : String :=
  String.intercalate "\n" (lines.map (fun l => String.mk (renderLine l)))

/-- `FolderScanner._scan_folder_thread`. -/
def runScanThread (stopAt : Option ℕ) (o : ScanOpts) (root : Sub) : ThreadOut :=
  let st := scanGo stopAt o (.sub root) [] 0 ⟨[], 0⟩
  let c := checkStop stopAt st
  if c.1 then
    ⟨["Scanning folder structure...", "Scan cancelled"], none, c.2⟩
  else
    ⟨["Scanning folder structure...",
      "Scan complete. Found " ++ toString st.lines.length ++ " items."],
      some (renderText st.lines), c.2⟩

/-! ### The viewer's `scan_folder` validation (C8) -/

/-- What `FolderTreeViewer.scan_folder` produces from one invocation: the
`update_status` messages, the message box shown on failure, whether the
scanner thread was launched, and the walk's lines when it was. -/
structure ViewerOutcome where
  statuses : List String
  errorDialog : Option String
  scanStarted : Bool
  lines : List TreeLine

/-- The status line announcing the configured depth. -/
def depthStatus (maxD : Option ℕ) : String :=
  match maxD with
  | none => "Scanning with unlimited depth"
  | some 0 => "Scanning current folder only (depth 0)"
  | some m => "Scanning with max depth: " ++ toString m

/-- `FolderTreeViewer.scan_folder`: the validation prefix followed by the
launch of the scan (`pathExists` / `pathIsDir` abstract the `os.path`
probes on the stripped path; `root` is the listing outcome of the
`os.listdir` access test).  The recent-folders/config bookkeeping and the
large-depth confirmation dialog of the success path are UI state with no
bearing on the emitted lines. -/
def viewerScanFolder (folderPath : String) (pathExists pathIsDir : Bool)
    (root : Sub) (o : ScanOpts) : ViewerOutcome :=
  if pyStrip folderPath.data = [] then
    ⟨["Please select a folder first."], none, false, []⟩
  else if pathExists = false then
    ⟨["Invalid folder path."], some "The selected folder does not exist.", false, []⟩
  else if pathIsDir = false then
    ⟨["Invalid folder path."], some "The selected path is not a folder.", false, []⟩
  else
    match root with
    | .denied =>
      ⟨["Access denied."], some "You don't have permission to access this folder.",
        false, []⟩
    | .errored m =>
      ⟨["Error accessing folder."], some ("Failed to access folder: " ++ m), false, []⟩
    | .ok items =>
      ⟨[depthStatus o.maxDepth], none, true, scanLines o (.ok items) [] 0⟩

/-! ### Definitions for the round-trip analysis (C1) -/

/-- The name of a filesystem entry. -/
def entryName : Entry → String
  | .file n _ => n
  | .dir n _ => n
  | .dirDenied n => n
  | .dirErrored n _ => n

/-- The final character exists and is not whitespace. -/
def lastNonWs (s : Chars) : Bool :=
  match s.getLast? with
  | some z => !z.isWhitespace
  | none => false

/-- Modelled from the spec, amended: a name the text rendering encodes
losslessly — nonempty, free of `/`, not ending in whitespace (which
`str.strip()` would eat) and not itself ending in the bracketed-size-suffix
syntax (which the parser would strip). -/
def goodName (n : String) : Bool :=
  !n.data.isEmpty && n.data.all (fun c => !(c == '/'))
    && lastNonWs n.data && (sizeMatchStart n.data).isNone

/-- The node `_parse_tree_to_json` builds for a root-level entry line. -/
def flatNode (n : String) (isDir : Bool) : JNode :=
  .mk n.data (if isDir then "directory" else "file")
    (if isDir then some [] else none)

/-- `flatNode` read off a scanner line (markers never arise in the flat
scans considered). -/
def flatNodeOf : TreeLine → JNode
  | .entry _ _ n isDir _ _ => flatNode n isDir
  | .marker _ t _ => .mk t "file" none

/-- A scanner line of the flat (depth-0, no-size) rendering with a
losslessly encodable name. -/
def flatLineOK : TreeLine → Prop
  | .entry pfx _ n _ sz _ => pfx = [] ∧ sz = [] ∧ goodName n = true
  | .marker _ _ _ => False

/-- Run `_parse_tree_to_json`'s line loop from an arbitrary stack state and
read off the final forest. -/
def parseFrom (st : Frame × List Frame) (lines : List Chars) : List JNode :=
  collapse (lines.foldl jsonLineStep st).1 (lines.foldl jsonLineStep st).2

/-- A container whose final node is an empty directory node: the shape of
the frame below the top immediately after a root-level directory line. -/
def endsFlatDir (ns : List JNode) : Prop :=
  ∃ m, ns.getLast? = some (JNode.mk m "directory" (some []))


/-! ### Lemmas about size formatting -/

lemma ratFloor_eq_intFloor (q : ℚ) : q.floor = ⌊q⌋ := by
  rw [Rat.floor_def', ← Rat.floor_def]

lemma divIter_eq_div_pow (k : ℕ) (q : ℚ) : divIter k q = q / 1024 ^ k := by
  induction k generalizing q with
  | zero => simp [divIter]
  | succ n ih =>
    rw [divIter, ih]
    rw [div_div]
    ring_nf

lemma roundHalfEven_intCast (z : ℤ) : roundHalfEven (z : ℚ) = z := by
  unfold roundHalfEven
  rw [ratFloor_eq_intFloor]
  norm_num

lemma roundHalfEven_natMul (n : ℕ) : roundHalfEven ((n : ℚ) * 100) = (100 * n : ℕ) := by
  have h : ((n : ℚ) * 100) = (((100 * n : ℕ) : ℤ) : ℚ) := by push_cast; ring
  rw [h, roundHalfEven_intCast]

lemma fmt2_nat (n : ℕ) : fmt2 (n : ℚ) = toString n ++ ".00" := by
  unfold fmt2
  rw [roundHalfEven_natMul]
  have h1 : ((100 * n : ℕ) : ℤ).toNat = 100 * n := Int.toNat_natCast _
  simp only [h1]
  have h2 : 100 * n / 100 = n := by omega
  have h3 : 100 * n % 100 = 0 := by omega
  rw [h2, h3, String.append_assoc]
  rfl

lemma fmt2_eq_of_mul_eq (q : ℚ) (m : ℕ) (h : q * 100 = (m : ℚ)) :
    fmt2 q = toString (m / 100) ++ "." ++ pad2 (m % 100) := by
  unfold fmt2
  have h2 : q * 100 = ((m : ℤ) : ℚ) := by rw [h]; push_cast; ring
  rw [h2, roundHalfEven_intCast]
  simp

/-- C6: the four reference equalities of size formatting: `0 → "0 B"`,
`1536` in auto mode → `"1.50 KB"`, `1048576` in auto mode → `"1.00 MB"`,
`500` in bytes mode → `"500 B"`. -/
theorem claim_C6_format_reference_values :
    formatSize 0 "auto" = some "0 B"
    ∧ formatSize 1536 "auto" = some "1.50 KB"
    ∧ formatSize 1048576 "auto" = some "1.00 MB"
    ∧ formatSize 500 "bytes" = some "500 B" := by
  refine ⟨?_, ?_, ?_, rfl⟩
  · rw [formatSize, if_neg (by decide), if_pos rfl]
  · have hloop : autoLoop 4 ((1536 : ℕ) : ℚ) 0 = (3/2, 1) := by
      rw [autoLoop, if_pos (by norm_num), autoLoop, if_neg (by norm_num)]
      norm_num
    rw [formatSize, if_neg (by decide), if_neg (by decide), if_pos rfl]
    show some (fmt2 (autoLoop 4 ((1536:ℕ):ℚ) 0).1 ++ " "
        ++ sizeNames.getD (autoLoop 4 ((1536:ℕ):ℚ) 0).2 "TB") = _
    rw [hloop, fmt2_eq_of_mul_eq (3/2) 150 (by norm_num)]
    rfl
  · have hloop : autoLoop 4 ((1048576 : ℕ) : ℚ) 0 = (1, 2) := by
      rw [autoLoop, if_pos (by norm_num), autoLoop, if_pos (by norm_num),
          autoLoop, if_neg (by norm_num)]
      norm_num
    rw [formatSize, if_neg (by decide), if_neg (by decide), if_pos rfl]
    show some (fmt2 (autoLoop 4 ((1048576:ℕ):ℚ) 0).1 ++ " "
        ++ sizeNames.getD (autoLoop 4 ((1048576:ℕ):ℚ) 0).2 "TB") = _
    rw [hloop, fmt2_eq_of_mul_eq 1 100 (by norm_num)]
    rfl

/-- C5 counterexample: at `s = 0` with explicit unit `KB` the code
short-circuits to `"0 B"` (the zero test precedes the explicit-unit branch),
not the claimed `"0.00 KB"`. -/
theorem claim_C5_counterexample :
    ¬ (formatSize 0 "KB"
        = some (fmt2 (((0:ℕ) : ℚ) / 1024 ^ sizeNames.indexOf "KB") ++ " " ++ "KB")) := by
  intro h
  have h1 : formatSize 0 "KB" = some "0 B" := by decide
  have h2 : fmt2 (((0:ℕ) : ℚ) / 1024 ^ sizeNames.indexOf "KB") = "0.00" := by
    rw [fmt2_eq_of_mul_eq _ 0 (by norm_num)]
    rfl
  rw [h1, h2] at h
  exact absurd h (by decide)

/-- C5 (amended): for every positive byte count `n` and explicit unit
`u ∈ {B, KB, MB, GB, TB}`, `_format_size` divides by 1024 exactly
`index-of-u` times and renders with two decimals followed by the unit; the
input 0 is excluded because it short-circuits to `"0 B"`. -/
theorem claim_C5_explicit_unit (n : ℕ) (h : 0 < n) (u : String) (hu : u ∈ sizeNames) :
    formatSize n u = some (fmt2 ((n : ℚ) / 1024 ^ sizeNames.indexOf u) ++ " " ++ u) := by
  have hn : ¬ (n = 0) := by omega
  have key : ∀ (k : ℕ), sizeNames.indexOf? u = some k → sizeNames.indexOf u = k →
      u ≠ "bytes" → u ≠ "auto" →
      formatSize n u = some (fmt2 ((n : ℚ) / 1024 ^ sizeNames.indexOf u) ++ " " ++ u) := by
    intro k hidx hidx2 hb ha
    rw [formatSize, if_neg hb, if_neg hn, if_neg ha, hidx]
    show some (fmt2 (divIter k (n:ℚ)) ++ " " ++ u) = _
    rw [divIter_eq_div_pow, hidx2]
  simp only [sizeNames, List.mem_cons, List.not_mem_nil, or_false] at hu
  rcases hu with rfl | rfl | rfl | rfl | rfl
  · exact key 0 rfl rfl (by decide) (by decide)
  · exact key 1 rfl rfl (by decide) (by decide)
  · exact key 2 rfl rfl (by decide) (by decide)
  · exact key 3 rfl rfl (by decide) (by decide)
  · exact key 4 rfl rfl (by decide) (by decide)

/-- C5 witness: the amended theorem applied at `n = 1536`, `u = "KB"`. -/
theorem claim_C5_witness :
    0 < 1536 ∧ "KB" ∈ sizeNames
    ∧ formatSize 1536 "KB"
        = some (fmt2 (((1536:ℕ) : ℚ) / 1024 ^ sizeNames.indexOf "KB") ++ " " ++ "KB") :=
  ⟨by decide, by decide, claim_C5_explicit_unit 1536 (by decide) "KB" (by decide)⟩

/-- C10: every byte count `1 ≤ n ≤ 1023` formats in auto mode with two
decimal places and the `B` unit (`"n.00 B"`), not the undecorated `"n B"`
of bytes mode, and only the exact input 0 short-circuits to `"0 B"`. -/
theorem claim_C10_auto_small (n : ℕ) (h1 : 1 ≤ n) (h2 : n ≤ 1023) :
    formatSize n "auto" = some (toString n ++ ".00 B")
    ∧ formatSize n "auto" ≠ some (toString n ++ " B")
    ∧ formatSize 0 "auto" = some "0 B" := by
  have hlt : ¬ (1024 ≤ (n : ℚ) ∧ 0 < 4) := by
    rintro ⟨hc, -⟩
    rw [show (1024:ℚ) = ((1024:ℕ):ℚ) by norm_num] at hc
    exact absurd (Nat.cast_le.mp hc) (by omega)
  have heq : formatSize n "auto" = some (toString n ++ ".00 B") := by
    rw [formatSize, if_neg (by decide), if_neg (by omega), if_pos rfl]
    show some (fmt2 (autoLoop 4 ((n:ℕ):ℚ) 0).1 ++ " "
        ++ sizeNames.getD (autoLoop 4 ((n:ℕ):ℚ) 0).2 "TB") = _
    rw [autoLoop, if_neg hlt]
    show some (fmt2 (n : ℚ) ++ " " ++ "B") = _
    rw [fmt2_nat, String.append_assoc, String.append_assoc]
    rfl
  refine ⟨heq, ?_, by rw [formatSize, if_neg (by decide), if_pos rfl]⟩
  intro hbad
  rw [heq] at hbad
  have hs := Option.some.inj hbad
  have := congrArg String.length hs
  simp only [String.length_append] at this
  have h5 : (".00 B" : String).length = 5 := by decide
  have hb2 : (" B" : String).length = 2 := by decide
  rw [h5, hb2] at this
  omega

/-- C10 witness: the theorem applied at `n = 500`. -/
theorem claim_C10_witness :
    1 ≤ 500 ∧ 500 ≤ 1023 ∧ formatSize 500 "auto" = some (toString 500 ++ ".00 B") :=
  ⟨by decide, by decide, (claim_C10_auto_small 500 (by decide) (by decide)).1⟩

/-! ### Lemmas about the JSON parser's node shapes (C9) -/

lemma nodesOK_append (a b : List JNode) :
    nodesOK (a ++ b) = (nodesOK a && nodesOK b) := by
  induction a with
  | nil => simp [nodesOK]
  | cons n ns ih => simp [nodesOK, ih, Bool.and_assoc]

lemma setLastChildren_ok (cs : List JNode) (hcs : nodesOK cs = true) :
    ∀ ns, nodesOK ns = true → endsWithDir ns →
      nodesOK (setLastChildren ns cs) = true := by
  intro ns
  induction ns with
  | nil =>
    intro _ hd
    obtain ⟨nm, c, hc⟩ := hd
    simp at hc
  | cons n rest ih =>
    intro h hd
    cases rest with
    | nil =>
      obtain ⟨nm, c, hc⟩ := hd
      simp at hc
      subst hc
      simp [setLastChildren, nodesOK, nodeOK, hcs]
    | cons m rest' =>
      obtain ⟨nm, c, hc⟩ := hd
      rw [List.getLast?_cons_cons] at hc
      have h' := h
      rw [show nodesOK (n :: m :: rest') = (nodeOK n && nodesOK (m :: rest')) from rfl,
        Bool.and_eq_true] at h'
      have := ih h'.2 ⟨nm, c, hc⟩
      simp [setLastChildren, nodesOK, h'.1, this]

lemma popFrames_ok (i : ℕ) :
    ∀ rest top, stackOK top rest →
      stackOK (popFrames i top rest).1 (popFrames i top rest).2 := by
  intro rest
  induction rest with
  | nil => intro top h; simpa [popFrames] using h
  | cons next rest' ih =>
    intro top h
    obtain ⟨htop, hrest⟩ := h
    rw [popFrames]
    by_cases hc : i ≤ top.2
    · rw [if_pos hc]
      apply ih
      refine ⟨?_, fun f hf => hrest f (List.mem_cons_of_mem _ hf)⟩
      obtain ⟨hn, hd⟩ := hrest next (List.mem_cons_self _ _)
      exact setLastChildren_ok _ htop _ hn hd
    · rw [if_neg hc]
      exact ⟨htop, hrest⟩

lemma collapse_ok :
    ∀ rest top, stackOK top rest → nodesOK (collapse top rest) = true := by
  intro rest
  induction rest with
  | nil => intro top h; exact h.1
  | cons next rest' ih =>
    intro top h
    obtain ⟨htop, hrest⟩ := h
    rw [collapse]
    apply ih
    refine ⟨?_, fun f hf => hrest f (List.mem_cons_of_mem _ hf)⟩
    obtain ⟨hn, hd⟩ := hrest next (List.mem_cons_self _ _)
    exact setLastChildren_ok _ htop _ hn hd

lemma jsonLineStep_ok (st : Frame × List Frame) (line : Chars)
    (h : stackOK st.1 st.2) :
    stackOK (jsonLineStep st line).1 (jsonLineStep st line).2 := by
  rw [jsonLineStep]
  by_cases h1 : pyStrip line = []
  · rwa [if_pos h1]
  rw [if_neg h1]
  set clean := pyStrip line with hclean
  set indent := leadingWs line with hindent
  simp only []
  split
  · exact h
  rename_i item0 hitem
  have hpop := popFrames_ok indent st.2 st.1 h
  set popped := popFrames indent st.1 st.2 with hpopped
  obtain ⟨htop, hrest⟩ := hpop
  by_cases hdir : (item0.getLast? == some '/') = true
  · rw [if_pos hdir, if_pos hdir, if_pos hdir]
    refine ⟨by simp [nodesOK], ?_⟩
    intro f hf
    rcases List.mem_cons.mp hf with rfl | hf'
    · constructor
      · rw [nodesOK_append, htop]
        simp [nodesOK, nodeOK]
      · exact ⟨_, _, List.getLast?_concat _⟩
    · exact hrest f hf'
  · rw [if_neg hdir, if_neg hdir, if_neg hdir]
    refine ⟨?_, hrest⟩
    rw [nodesOK_append, htop]
    simp [nodesOK, nodeOK]

/-- C9: every node dictionary in the forest returned by
`_parse_tree_to_json`, at any nesting level, carries a `"children"` list iff
its `"type"` is `"directory"` (file nodes never carry one), the `"type"` is
always one of the two values, and the top-level result is a plain (possibly
empty) list with no synthetic wrapping root. -/
theorem claim_C9_node_shape (lines : List Chars) :
    nodesOK (parseTreeToJson lines) = true ∧ parseTreeToJson ([] : List Chars) = [] := by
  constructor
  · rw [parseTreeToJson]
    have : ∀ (ls : List Chars) (st : Frame × List Frame), stackOK st.1 st.2 →
        stackOK (ls.foldl jsonLineStep st).1 (ls.foldl jsonLineStep st).2 := by
      intro ls
      induction ls with
      | nil => intro st h; exact h
      | cons l ls' ih =>
        intro st h
        exact ih _ (jsonLineStep_ok st l h)
    have hinit : stackOK (([], 0) : Frame) ([] : List Frame) := by
      refine ⟨rfl, by simp⟩
    exact collapse_ok _ _ (this (skipHeader lines) _ hinit)
  · rfl

/-! ### Lemmas about the CSV export (C4) -/

lemma csvStep_sim (root : List Chars) (mt : List Chars → Chars)
    (s : List Chars) (rows : List CsvRow) (paths : List (List Chars))
    (hp : rows.map CsvRow.path = paths) (line : Chars) :
    (csvLineStep root mt (s, rows) line).1 = (csvPathStep root (s, paths) line).1
    ∧ ((csvLineStep root mt (s, rows) line).2).map CsvRow.path
        = (csvPathStep root (s, paths) line).2 := by
  rw [csvLineStep, csvPathStep]
  by_cases h1 : pyStrip line = []
  · rw [if_pos h1, if_pos h1]
    exact ⟨rfl, hp⟩
  rw [if_neg h1, if_neg h1]
  by_cases h2 : csvHeaderSkip line = true
  · rw [if_pos h2, if_pos h2]
    exact ⟨rfl, hp⟩
  rw [if_neg h2, if_neg h2]
  by_cases h3 : (connBranch.isPrefixOf (pyStrip line)
      || connCorner.isPrefixOf (pyStrip line)) = true
  · simp only [h3, if_true]
    refine ⟨trivial, ?_⟩
    simp only [List.map_append, hp, List.map_cons, List.map_nil]
    congr 1
    show [((root ++ _ ++ [_]).dropLast : List Chars)] = _
    rw [List.dropLast_concat]
  · simp only [h3, if_false]
    exact ⟨rfl, hp⟩

/-- C4 counterexample: for root `r` and the single rendered line `└── a`,
the emitted row's path field is `r` (the parent directory: the code stores
`os.path.dirname(full_path)`), not the claimed path `r/a` that includes the
entry itself. -/
theorem claim_C4_counterexample :
    (exportCsvRows ["r".data] (fun _ => []) ["└── a".data]).map CsvRow.path
      = [["r".data]]
    ∧ ["r".data] ≠ ["r".data, "a".data] :=
  ⟨rfl, by decide⟩

/-- C4 (amended): the CSV export emits, for every parsed entry line, a row
whose path field is the join of the root path with the path-stack names up
to but EXCLUDING the current entry (its parent directory), the stack having
been truncated to the line's depth before the entry's name was pushed. -/
theorem claim_C4_path_reconstruction (root : List Chars) (mt : List Chars → Chars)
    (lines : List Chars) :
    (exportCsvRows root mt lines).map CsvRow.path = csvPathsSpec root lines := by
  rw [exportCsvRows, csvPathsSpec]
  have main : ∀ (ls : List Chars) (s : List Chars) (rows : List CsvRow)
      (paths : List (List Chars)), rows.map CsvRow.path = paths →
      ((ls.foldl (csvLineStep root mt) (s, rows)).2).map CsvRow.path
        = (ls.foldl (csvPathStep root) (s, paths)).2 := by
    intro ls
    induction ls with
    | nil => intro s rows paths hp; exact hp
    | cons l ls' ih =>
      intro s rows paths hp
      obtain ⟨hs, hr⟩ := csvStep_sim root mt s rows paths hp l
      rw [List.foldl_cons, List.foldl_cons]
      have : csvPathStep root (s, paths) l
          = ((csvLineStep root mt (s, rows) l).1, (csvPathStep root (s, paths) l).2) := by
        rw [hs]
      rw [this]
      exact ih _ _ _ hr
  exact main lines [] [] [] rfl

/-! ### Basic lemmas about the scan walk -/

lemma checkStop_eq (stopAt : Option ℕ) (st : ScanSt) :
    checkStop stopAt st = (stopBit stopAt st.checks, ⟨st.lines, st.checks + 1⟩) := by
  cases st
  cases stopAt <;> rfl

lemma scanFiles_prepend (stopAt : Option ℕ) (o : ScanOpts) :
    ∀ (fls : List (String × ℕ)) (pfx : Chars) (d : ℕ) (ls : List TreeLine)
      (c : ℕ) (l0 : List TreeLine),
      scanFiles stopAt o fls pfx d ⟨l0 ++ ls, c⟩
        = ⟨l0 ++ (scanFiles stopAt o fls pfx d ⟨ls, c⟩).lines,
           (scanFiles stopAt o fls pfx d ⟨ls, c⟩).checks⟩ := by
  intro fls
  induction fls with
  | nil => intro pfx d ls c l0; rfl
  | cons p rest ih =>
    intro pfx d ls c l0
    obtain ⟨n, sz⟩ := p
    rw [scanFiles, scanFiles, checkStop_eq, checkStop_eq]
    by_cases hb : stopBit stopAt c = true
    · simp only [hb, if_true]
    · simp only [hb, if_false]
      rw [pushLine, pushLine]
      simp only [List.append_assoc]
      exact ih pfx d (ls ++ [TreeLine.entry pfx rest.isEmpty n false (sizeAnnot o sz) d]) (c + 1) l0

lemma scanGo_sub_stop (stopAt : Option ℕ) (o : ScanOpts) (s : Sub) (pfx : Chars)
    (d : ℕ) (st : ScanSt) (h : stopBit stopAt st.checks = true) :
    scanGo stopAt o (.sub s) pfx d st = ⟨st.lines, st.checks + 1⟩ := by
  cases s
  · rw [scanGo.eq_3, checkStop_eq]
    simp [h]
  · rw [scanGo.eq_1, checkStop_eq]
    simp [h]
  · rw [scanGo.eq_2, checkStop_eq]
    simp [h]

lemma scanGo_sub_depth (stopAt : Option ℕ) (o : ScanOpts) (s : Sub) (pfx : Chars)
    (d : ℕ) (st : ScanSt) (hb : stopBit stopAt st.checks = false)
    (hd : depthExceeded o.maxDepth d = true) :
    scanGo stopAt o (.sub s) pfx d st = ⟨st.lines, st.checks + 1⟩ := by
  cases s
  · rw [scanGo.eq_3, checkStop_eq]
    simp [hb, hd]
  · rw [scanGo.eq_1, checkStop_eq]
    simp [hb, hd]
  · rw [scanGo.eq_2, checkStop_eq]
    simp [hb, hd]

lemma scanGo_sub_denied (stopAt : Option ℕ) (o : ScanOpts) (pfx : Chars)
    (d : ℕ) (st : ScanSt) (hb : stopBit stopAt st.checks = false)
    (hd : depthExceeded o.maxDepth d = false) :
    scanGo stopAt o (.sub .denied) pfx d st
      = ⟨st.lines ++ [.marker pfx "[Access Denied]".data d], st.checks + 1⟩ := by
  rw [scanGo.eq_1, checkStop_eq]
  simp [hb, hd, pushLine]

lemma scanGo_sub_errored (stopAt : Option ℕ) (o : ScanOpts) (m : String) (pfx : Chars)
    (d : ℕ) (st : ScanSt) (hb : stopBit stopAt st.checks = false)
    (hd : depthExceeded o.maxDepth d = false) :
    scanGo stopAt o (.sub (.errored m)) pfx d st
      = ⟨st.lines ++ [.marker pfx ("[Error: " ++ m ++ "]").data d], st.checks + 1⟩ := by
  rw [scanGo.eq_2, checkStop_eq]
  simp [hb, hd, pushLine]

lemma scanGo_sub_ok_inc (stopAt : Option ℕ) (o : ScanOpts) (items : List Entry)
    (pfx : Chars) (d : ℕ) (st : ScanSt) (hb : stopBit stopAt st.checks = false)
    (hd : depthExceeded o.maxDepth d = false) (hi : o.includeFiles = true) :
    scanGo stopAt o (.sub (.ok items)) pfx d st
      = scanFiles stopAt o ((items.filterMap entryFile?).insertionSort filePairLe)
          pfx d
          (scanGo stopAt o
            (.dirs ((items.filterMap entryDir?).insertionSort pairLe)
              ((items.filterMap entryFile?).insertionSort filePairLe).isEmpty)
            pfx d ⟨st.lines, st.checks + 1⟩) := by
  rw [scanGo.eq_3, checkStop_eq]
  simp [hb, hd, hi]

lemma scanGo_sub_ok_noinc (stopAt : Option ℕ) (o : ScanOpts) (items : List Entry)
    (pfx : Chars) (d : ℕ) (st : ScanSt) (hb : stopBit stopAt st.checks = false)
    (hd : depthExceeded o.maxDepth d = false) (hi : o.includeFiles = false) :
    scanGo stopAt o (.sub (.ok items)) pfx d st
      = scanGo stopAt o
          (.dirs ((items.filterMap entryDir?).insertionSort pairLe) true)
          pfx d ⟨st.lines, st.checks + 1⟩ := by
  rw [scanGo.eq_3, checkStop_eq]
  simp [hb, hd, hi]

lemma scanGo_dirs_nil (stopAt : Option ℕ) (o : ScanOpts) (fe : Bool) (pfx : Chars)
    (d : ℕ) (st : ScanSt) :
    scanGo stopAt o (.dirs [] fe) pfx d st = st := by
  rw [scanGo]

lemma scanGo_dirs_cons_stop (stopAt : Option ℕ) (o : ScanOpts) (n : String) (sub : Sub)
    (rest : List (String × Sub)) (fe : Bool) (pfx : Chars) (d : ℕ) (st : ScanSt)
    (h : stopBit stopAt st.checks = true) :
    scanGo stopAt o (.dirs ((n, sub) :: rest) fe) pfx d st
      = ⟨st.lines, st.checks + 1⟩ := by
  rw [scanGo, checkStop_eq]
  simp [h]

lemma scanGo_dirs_cons (stopAt : Option ℕ) (o : ScanOpts) (n : String) (sub : Sub)
    (rest : List (String × Sub)) (fe : Bool) (pfx : Chars) (d : ℕ) (st : ScanSt)
    (hb : stopBit stopAt st.checks = false) :
    scanGo stopAt o (.dirs ((n, sub) :: rest) fe) pfx d st
      = scanGo stopAt o (.dirs rest fe) pfx d
          (scanGo stopAt o (.sub sub)
            (pfx ++ (if rest.isEmpty && fe then blankSeg else barSeg)) (d + 1)
            ⟨st.lines
              ++ [.entry pfx (rest.isEmpty && fe) n true (sizeAnnot o (subSize sub)) d],
             st.checks + 1⟩) := by
  rw [scanGo, checkStop_eq]
  simp [hb, pushLine]

lemma scanGo_prepend (stopAt : Option ℕ) (o : ScanOpts) :
    ∀ (j : Job) (pfx : Chars) (d : ℕ) (st : ScanSt) (l0 : List TreeLine),
      scanGo stopAt o j pfx d ⟨l0 ++ st.lines, st.checks⟩
        = ⟨l0 ++ (scanGo stopAt o j pfx d st).lines,
           (scanGo stopAt o j pfx d st).checks⟩ := by
  intro j pfx d st
  induction j, pfx, d, st using scanGo.induct
  case stopAt => exact stopAt
  case o => exact o
  case case1 s pfx d st hc =>
    intro l0
    have hbit : stopBit stopAt st.checks = true := hc
    rw [scanGo_sub_stop stopAt o s pfx d st hbit,
      scanGo_sub_stop stopAt o s pfx d ⟨l0 ++ st.lines, st.checks⟩ hbit]
  case case2 s pfx d st hc hd =>
    intro l0
    simp only [Bool.not_eq_true] at hc
    have hb : stopBit stopAt st.checks = false := hc
    rw [scanGo_sub_depth stopAt o s pfx d st hb hd,
      scanGo_sub_depth stopAt o s pfx d ⟨l0 ++ st.lines, st.checks⟩ hb hd]
  case case3 pfx d st hc hd =>
    intro l0
    simp only [Bool.not_eq_true] at hc hd
    have hb : stopBit stopAt st.checks = false := hc
    rw [scanGo_sub_denied stopAt o pfx d st hb hd,
      scanGo_sub_denied stopAt o pfx d ⟨l0 ++ st.lines, st.checks⟩ hb hd]
    simp [List.append_assoc]
  case case4 pfx d st hc hd m =>
    intro l0
    simp only [Bool.not_eq_true] at hc hd
    have hb : stopBit stopAt st.checks = false := hc
    rw [scanGo_sub_errored stopAt o m pfx d st hb hd,
      scanGo_sub_errored stopAt o m pfx d ⟨l0 ++ st.lines, st.checks⟩ hb hd]
    simp [List.append_assoc]
  case case5 pfx d st hc hd items hi ih =>
    intro l0
    simp only [Bool.not_eq_true] at hc hd
    have hb : stopBit stopAt st.checks = false := hc
    rw [scanGo_sub_ok_inc stopAt o items pfx d st hb hd hi,
      scanGo_sub_ok_inc stopAt o items pfx d ⟨l0 ++ st.lines, st.checks⟩ hb hd hi]
    simp only [checkStop_eq] at ih
    rw [ih l0]
    exact scanFiles_prepend stopAt o _ pfx d _ _ l0
  case case6 pfx d st hc hd items hi ih =>
    intro l0
    simp only [Bool.not_eq_true] at hc hd hi
    have hb : stopBit stopAt st.checks = false := hc
    rw [scanGo_sub_ok_noinc stopAt o items pfx d st hb hd hi,
      scanGo_sub_ok_noinc stopAt o items pfx d ⟨l0 ++ st.lines, st.checks⟩ hb hd hi]
    simp only [checkStop_eq, List.isEmpty_nil] at ih
    exact ih l0
  case case7 fe pfx d st =>
    intro l0
    rw [scanGo_dirs_nil, scanGo_dirs_nil]
  case case8 n sub rest fe pfx d st hc =>
    intro l0
    have hbit : stopBit stopAt st.checks = true := hc
    rw [scanGo_dirs_cons_stop stopAt o n sub rest fe pfx d st hbit,
      scanGo_dirs_cons_stop stopAt o n sub rest fe pfx d ⟨l0 ++ st.lines, st.checks⟩ hbit]
  case case9 n sub rest fe pfx d st hc ih1 ih2 =>
    intro l0
    simp only [Bool.not_eq_true] at hc
    have hb : stopBit stopAt st.checks = false := hc
    rw [scanGo_dirs_cons stopAt o n sub rest fe pfx d st hb,
      scanGo_dirs_cons stopAt o n sub rest fe pfx d ⟨l0 ++ st.lines, st.checks⟩ hb]
    simp only [checkStop_eq, pushLine, dite_eq_ite] at ih1 ih2
    rw [List.append_assoc]
    rw [ih1 l0]
    exact ih2 l0


lemma scanGo_lines_split (stopAt : Option ℕ) (o : ScanOpts) (j : Job) (pfx : Chars)
    (d : ℕ) (st : ScanSt) :
    (scanGo stopAt o j pfx d st).lines
      = st.lines ++ (scanGo stopAt o j pfx d ⟨[], st.checks⟩).lines := by
  obtain ⟨ls, c⟩ := st
  have h := scanGo_prepend stopAt o j pfx d ⟨[], c⟩ ls
  dsimp only at h
  rw [List.append_nil] at h
  rw [h]

lemma scanFiles_lines_split (stopAt : Option ℕ) (o : ScanOpts)
    (fls : List (String × ℕ)) (pfx : Chars) (d : ℕ) (st : ScanSt) :
    (scanFiles stopAt o fls pfx d st).lines
      = st.lines ++ (scanFiles stopAt o fls pfx d ⟨[], st.checks⟩).lines := by
  obtain ⟨ls, c⟩ := st
  have h := scanFiles_prepend stopAt o fls pfx d [] c ls
  rw [List.append_nil] at h
  rw [h]

lemma scanFiles_none_c (o : ScanOpts) :
    ∀ (fls : List (String × ℕ)) (pfx : Chars) (d : ℕ) (c c' : ℕ),
      (scanFiles none o fls pfx d ⟨[], c⟩).lines
        = (scanFiles none o fls pfx d ⟨[], c'⟩).lines := by
  intro fls
  induction fls with
  | nil => intro pfx d c c'; rfl
  | cons p rest ih =>
    intro pfx d c c'
    obtain ⟨n, sz⟩ := p
    rw [scanFiles, scanFiles, checkStop_eq, checkStop_eq]
    simp only [stopBit, Bool.false_eq_true, if_false, pushLine]
    rw [scanFiles_lines_split none o rest pfx d, scanFiles_lines_split none o rest pfx d
      ⟨[] ++ [TreeLine.entry pfx rest.isEmpty n false (sizeAnnot o sz) d], c' + 1⟩]
    dsimp only
    rw [ih pfx d (c + 1) (c' + 1)]

end FolderTreeViewer
namespace FolderTreeViewer

lemma checkStop_none_fst (st : ScanSt) : (checkStop none st).1 = false := rfl

lemma scanGo_checks_split (stopAt : Option ℕ) (o : ScanOpts) (j : Job) (pfx : Chars)
    (d : ℕ) (st : ScanSt) :
    (scanGo stopAt o j pfx d st).checks
      = (scanGo stopAt o j pfx d ⟨[], st.checks⟩).checks := by
  obtain ⟨ls, c⟩ := st
  have h := scanGo_prepend stopAt o j pfx d ⟨[], c⟩ ls
  dsimp only at h
  rw [List.append_nil] at h
  rw [h]

lemma scanFiles_checks_split (stopAt : Option ℕ) (o : ScanOpts)
    (fls : List (String × ℕ)) (pfx : Chars) (d : ℕ) (st : ScanSt) :
    (scanFiles stopAt o fls pfx d st).checks
      = (scanFiles stopAt o fls pfx d ⟨[], st.checks⟩).checks := by
  obtain ⟨ls, c⟩ := st
  have h := scanFiles_prepend stopAt o fls pfx d [] c ls
  rw [List.append_nil] at h
  rw [h]

lemma em_dirs_cons_raw (o : ScanOpts) (n : String) (sub : Sub)
    (rest : List (String × Sub)) (fe : Bool) (pfx : Chars) (d : ℕ) (c : ℕ) :
    (scanGo none o (.dirs ((n, sub) :: rest) fe) pfx d ⟨[], c⟩).lines
      = .entry pfx (rest.isEmpty && fe) n true (sizeAnnot o (subSize sub)) d
        :: ((scanGo none o (.sub sub)
              (pfx ++ (if rest.isEmpty && fe then blankSeg else barSeg)) (d + 1)
              ⟨[], c + 1⟩).lines
          ++ (scanGo none o (.dirs rest fe) pfx d
              ⟨[], (scanGo none o (.sub sub)
                (pfx ++ (if rest.isEmpty && fe then blankSeg else barSeg)) (d + 1)
                ⟨[], c + 1⟩).checks⟩).lines) := by
  rw [scanGo_dirs_cons none o n sub rest fe pfx d ⟨[], c⟩ rfl]
  rw [scanGo_lines_split none o (.dirs rest fe) pfx d]
  rw [scanGo_lines_split none o (.sub sub) _ (d + 1)]
  rw [scanGo_checks_split none o (.sub sub) _ (d + 1)]
  dsimp only
  simp

lemma em_sub_ok_inc_raw (o : ScanOpts) (items : List Entry) (pfx : Chars) (d : ℕ)
    (c : ℕ) (hd : depthExceeded o.maxDepth d = false) (hi : o.includeFiles = true) :
    (scanGo none o (.sub (.ok items)) pfx d ⟨[], c⟩).lines
      = (scanGo none o
          (.dirs ((items.filterMap entryDir?).insertionSort pairLe)
            ((items.filterMap entryFile?).insertionSort filePairLe).isEmpty)
          pfx d ⟨[], c + 1⟩).lines
        ++ (scanFiles none o ((items.filterMap entryFile?).insertionSort filePairLe)
            pfx d ⟨[], 0⟩).lines := by
  rw [scanGo_sub_ok_inc none o items pfx d ⟨[], c⟩ rfl hd hi]
  rw [scanFiles_lines_split]
  rw [scanGo_lines_split none o _ pfx d ⟨[], c + 1⟩]
  dsimp only
  rw [List.nil_append]
  congr 1
  exact scanFiles_none_c o _ pfx d _ 0

lemma em_sub_ok_noinc_raw (o : ScanOpts) (items : List Entry) (pfx : Chars) (d : ℕ)
    (c : ℕ) (hd : depthExceeded o.maxDepth d = false) (hi : o.includeFiles = false) :
    (scanGo none o (.sub (.ok items)) pfx d ⟨[], c⟩).lines
      = (scanGo none o
          (.dirs ((items.filterMap entryDir?).insertionSort pairLe) true)
          pfx d ⟨[], c + 1⟩).lines := by
  rw [scanGo_sub_ok_noinc none o items pfx d ⟨[], c⟩ rfl hd hi]


lemma em_sub_depth (o : ScanOpts) (s : Sub) (pfx : Chars) (d : ℕ) (c : ℕ)
    (hd : depthExceeded o.maxDepth d = true) :
    (scanGo none o (.sub s) pfx d ⟨[], c⟩).lines = [] := by
  rw [scanGo_sub_depth none o s pfx d ⟨[], c⟩ rfl hd]

lemma em_sub_denied_raw (o : ScanOpts) (pfx : Chars) (d : ℕ) (c : ℕ)
    (hd : depthExceeded o.maxDepth d = false) :
    (scanGo none o (.sub .denied) pfx d ⟨[], c⟩).lines
      = [.marker pfx "[Access Denied]".data d] := by
  rw [scanGo_sub_denied none o pfx d ⟨[], c⟩ rfl hd]
  rfl

lemma em_sub_errored_raw (o : ScanOpts) (m : String) (pfx : Chars) (d : ℕ) (c : ℕ)
    (hd : depthExceeded o.maxDepth d = false) :
    (scanGo none o (.sub (.errored m)) pfx d ⟨[], c⟩).lines
      = [.marker pfx ("[Error: " ++ m ++ "]").data d] := by
  rw [scanGo_sub_errored none o m pfx d ⟨[], c⟩ rfl hd]
  rfl

lemma em_dirs_nil (o : ScanOpts) (fe : Bool) (pfx : Chars) (d : ℕ) (c : ℕ) :
    (scanGo none o (.dirs [] fe) pfx d ⟨[], c⟩).lines = [] := by
  rw [scanGo_dirs_nil]

lemma scanFiles_none_lines (o : ScanOpts) :
    ∀ (fls : List (String × ℕ)) (pfx : Chars) (d : ℕ) (c : ℕ),
      (scanFiles none o fls pfx d ⟨[], c⟩).lines = fileLines o pfx d fls := by
  intro fls
  induction fls with
  | nil => intro pfx d c; rfl
  | cons p rest ih =>
    intro pfx d c
    obtain ⟨n, sz⟩ := p
    rw [scanFiles, checkStop_eq]
    simp only [stopBit, Bool.false_eq_true, if_false, pushLine]
    rw [scanFiles_lines_split]
    dsimp only
    rw [ih pfx d _]
    simp [fileLines]


lemma depthExceeded_some (N d : ℕ) : depthExceeded (some N) d = decide (N < d) := rfl

lemma depthExceeded_none (d : ℕ) : depthExceeded none d = false := rfl

lemma fileLines_depth (o : ScanOpts) (pfx : Chars) (d : ℕ) :
    ∀ (fls : List (String × ℕ)) (l : TreeLine), l ∈ fileLines o pfx d fls →
      lineDepth l = d := by
  intro fls
  induction fls with
  | nil => intro l hl; simp [fileLines] at hl
  | cons p rest ih =>
    intro l hl
    obtain ⟨n, sz⟩ := p
    rcases List.mem_cons.mp hl with rfl | hl'
    · rfl
    · exact ih l hl'

lemma emitted_depth_ge (o : ScanOpts) :
    ∀ (j : Job) (pfx : Chars) (d : ℕ) (st : ScanSt) (c : ℕ) (l : TreeLine),
      l ∈ (scanGo none o j pfx d ⟨[], c⟩).lines → d ≤ lineDepth l := by
  intro j pfx d st
  induction j, pfx, d, st using scanGo.induct
  case stopAt => exact none
  case o => exact o
  case case1 s pfx d st hc =>
    rw [checkStop_none_fst] at hc
    exact absurd hc (by decide)
  case case2 s pfx d st hc hd =>
    intro c l hl
    rw [em_sub_depth o s pfx d c hd] at hl
    simp at hl
  case case3 pfx d st hc hd =>
    intro c l hl
    simp only [Bool.not_eq_true] at hd
    rw [em_sub_denied_raw o pfx d c hd] at hl
    simp at hl
    subst hl
    rfl
  case case4 pfx d st hc hd m =>
    intro c l hl
    simp only [Bool.not_eq_true] at hd
    rw [em_sub_errored_raw o m pfx d c hd] at hl
    simp at hl
    subst hl
    rfl
  case case5 pfx d st hc hd items hi ih =>
    intro c l hl
    simp only [Bool.not_eq_true] at hd
    rw [em_sub_ok_inc_raw o items pfx d c hd hi] at hl
    rcases List.mem_append.mp hl with h1 | h2
    · exact ih (c + 1) l h1
    · rw [scanFiles_none_lines] at h2
      rw [fileLines_depth o pfx d _ l h2]
  case case6 pfx d st hc hd items hi ih =>
    intro c l hl
    simp only [Bool.not_eq_true] at hd hi
    rw [em_sub_ok_noinc_raw o items pfx d c hd hi] at hl
    exact ih (c + 1) l hl
  case case7 fe pfx d st =>
    intro c l hl
    rw [em_dirs_nil] at hl
    simp at hl
  case case8 n sub rest fe pfx d st hc =>
    rw [checkStop_none_fst] at hc
    exact absurd hc (by decide)
  case case9 n sub rest fe pfx d st hc ih1 ih2 =>
    intro c l hl
    rw [em_dirs_cons_raw] at hl
    rcases List.mem_cons.mp hl with rfl | hl'
    · rfl
    rcases List.mem_append.mp hl' with h1 | h2
    · exact le_trans (Nat.le_succ d) (ih1 (c + 1) l h1)
    · exact ih2 _ l h2


lemma sizeAnnot_maxDepth (inc shS : Bool) (fmt : String) (md md' : Option ℕ) (sz : ℕ) :
    sizeAnnot ⟨inc, md, shS, fmt⟩ sz = sizeAnnot ⟨inc, md', shS, fmt⟩ sz := rfl

lemma fileLines_maxDepth (inc shS : Bool) (fmt : String) (md md' : Option ℕ)
    (pfx : Chars) (d : ℕ) :
    ∀ fls, fileLines ⟨inc, md, shS, fmt⟩ pfx d fls
      = fileLines ⟨inc, md', shS, fmt⟩ pfx d fls := by
  intro fls
  induction fls with
  | nil => rfl
  | cons p rest ih =>
    obtain ⟨n, sz⟩ := p
    rw [fileLines, fileLines, ih]
    rfl

lemma scan_maxDepth_filter (inc shS : Bool) (fmt : String) (N : ℕ) :
    ∀ (j : Job) (pfx : Chars) (d : ℕ) (st : ScanSt) (c c' : ℕ),
      (match j with | .dirs _ _ => d ≤ N | .sub _ => True) →
      (scanGo none ⟨inc, some N, shS, fmt⟩ j pfx d ⟨[], c⟩).lines
        = ((scanGo none ⟨inc, none, shS, fmt⟩ j pfx d ⟨[], c'⟩).lines).filter
            (fun l => decide (lineDepth l ≤ N)) := by
  intro j pfx d st
  induction j, pfx, d, st using scanGo.induct
  case stopAt => exact none
  case o => exact (⟨inc, none, shS, fmt⟩ : ScanOpts)
  case case1 s pfx d st hc =>
    rw [checkStop_none_fst] at hc
    exact absurd hc (by decide)
  case case2 s pfx d st hc hd =>
    rw [depthExceeded_none] at hd
    exact absurd hd (by decide)
  case case3 pfx d st hc hd =>
    intro c c' htriv
    by_cases hN : N < d
    · rw [em_sub_depth ⟨inc, some N, shS, fmt⟩ _ pfx d c (by simpa [depthExceeded_some] using hN),
        em_sub_denied_raw ⟨inc, none, shS, fmt⟩ pfx d c' rfl]
      have hdec : decide (d ≤ N) = false := decide_eq_false (by omega)
      simp only [List.filter, lineDepth, hdec]
    · have hN' : depthExceeded (some N) d = false := by
        simp [depthExceeded_some]
        omega
      rw [em_sub_denied_raw ⟨inc, some N, shS, fmt⟩ pfx d c (by exact hN'),
        em_sub_denied_raw ⟨inc, none, shS, fmt⟩ pfx d c' rfl]
      have hdec : decide (d ≤ N) = true := decide_eq_true (by omega)
      simp only [List.filter, lineDepth, hdec]
  case case4 pfx d st hc hd m =>
    intro c c' htriv
    by_cases hN : N < d
    · rw [em_sub_depth ⟨inc, some N, shS, fmt⟩ _ pfx d c (by simpa [depthExceeded_some] using hN),
        em_sub_errored_raw ⟨inc, none, shS, fmt⟩ m pfx d c' rfl]
      have hdec : decide (d ≤ N) = false := decide_eq_false (by omega)
      simp only [List.filter, lineDepth, hdec]
    · have hN' : depthExceeded (some N) d = false := by
        simp [depthExceeded_some]
        omega
      rw [em_sub_errored_raw ⟨inc, some N, shS, fmt⟩ m pfx d c (by exact hN'),
        em_sub_errored_raw ⟨inc, none, shS, fmt⟩ m pfx d c' rfl]
      have hdec : decide (d ≤ N) = true := decide_eq_true (by omega)
      simp only [List.filter, lineDepth, hdec]
  case case5 pfx d st hc hd items hi ih =>
    intro c c' htriv
    by_cases hN : N < d
    · rw [em_sub_depth ⟨inc, some N, shS, fmt⟩ _ pfx d c (by simpa [depthExceeded_some] using hN),
        em_sub_ok_inc_raw ⟨inc, none, shS, fmt⟩ items pfx d c' rfl (by exact hi)]
      symm
      rw [List.filter_eq_nil_iff]
      intro l hl
      rcases List.mem_append.mp hl with h1 | h2
      · have := emitted_depth_ge ⟨inc, none, shS, fmt⟩ _ pfx d ⟨[], 0⟩ _ l h1
        simp only [decide_eq_true_eq]
        omega
      · rw [scanFiles_none_lines] at h2
        have := fileLines_depth _ pfx d _ l h2
        simp only [decide_eq_true_eq]
        omega
    · have hN' : depthExceeded (some N) d = false := by
        simp [depthExceeded_some]
        omega
      rw [em_sub_ok_inc_raw ⟨inc, some N, shS, fmt⟩ items pfx d c (by exact hN') (by exact hi),
        em_sub_ok_inc_raw ⟨inc, none, shS, fmt⟩ items pfx d c' rfl (by exact hi),
        List.filter_append]
      congr 1
      · exact ih (c + 1) (c' + 1) (by simpa using Nat.not_lt.mp hN)
      · rw [scanFiles_none_lines, scanFiles_none_lines]
        rw [fileLines_maxDepth inc shS fmt (some N) none]
        symm
        rw [List.filter_eq_self]
        intro l hl
        have := fileLines_depth _ pfx d _ l hl
        simp only [decide_eq_true_eq]
        omega
  case case6 pfx d st hc hd items hi ih =>
    intro c c' htriv
    have hi' : (⟨inc, none, shS, fmt⟩ : ScanOpts).includeFiles = false := by
      simpa using hi
    by_cases hN : N < d
    · rw [em_sub_depth ⟨inc, some N, shS, fmt⟩ _ pfx d c (by simpa [depthExceeded_some] using hN),
        em_sub_ok_noinc_raw ⟨inc, none, shS, fmt⟩ items pfx d c' rfl hi']
      symm
      rw [List.filter_eq_nil_iff]
      intro l hl
      have := emitted_depth_ge ⟨inc, none, shS, fmt⟩ _ pfx d ⟨[], 0⟩ _ l hl
      simp only [decide_eq_true_eq]
      omega
    · have hN' : depthExceeded (some N) d = false := by
        simp [depthExceeded_some]
        omega
      rw [em_sub_ok_noinc_raw ⟨inc, some N, shS, fmt⟩ items pfx d c (by exact hN') (by exact hi'),
        em_sub_ok_noinc_raw ⟨inc, none, shS, fmt⟩ items pfx d c' rfl hi']
      exact ih (c + 1) (c' + 1) (by simpa using Nat.not_lt.mp hN)
  case case7 fe pfx d st =>
    intro c c' htriv
    rw [em_dirs_nil, em_dirs_nil]
    rfl
  case case8 n sub rest fe pfx d st hc =>
    rw [checkStop_none_fst] at hc
    exact absurd hc (by decide)
  case case9 n sub rest fe pfx d st hc ih1 ih2 =>
    intro c c' hdN
    simp only [dite_eq_ite] at ih1 ih2
    have hdN' : d ≤ N := by simpa using hdN
    rw [em_dirs_cons_raw ⟨inc, some N, shS, fmt⟩ n sub rest fe pfx d c,
      em_dirs_cons_raw ⟨inc, none, shS, fmt⟩ n sub rest fe pfx d c']
    rw [List.filter_cons]
    have hdec : decide (d ≤ N) = true := decide_eq_true hdN'
    simp only [lineDepth, hdec, if_true]
    rw [List.filter_append]
    congr 1
    congr 1
    · exact ih1 (c + 1) (c' + 1) trivial
    · exact ih2 _ _ (by simpa using hdN')



lemma em_dirs_flat (o : ScanOpts) (hmd : o.maxDepth = some 0) :
    ∀ (ds : List (String × Sub)) (fe : Bool) (pfx : Chars) (c : ℕ),
      (scanGo none o (.dirs ds fe) pfx 0 ⟨[], c⟩).lines = dirLines o pfx 0 ds fe := by
  intro ds
  induction ds with
  | nil => intro fe pfx c; rw [em_dirs_nil]; rfl
  | cons p rest ih =>
    intro fe pfx c
    obtain ⟨n, sub⟩ := p
    rw [em_dirs_cons_raw]
    rw [em_sub_depth o sub _ 1 _ (by rw [hmd]; rfl)]
    rw [ih fe pfx _]
    simp [dirLines]

lemma scan_flat (inc shS : Bool) (fmt : String) (items : List Entry) (pfx : Chars) :
    scanLines ⟨inc, some 0, shS, fmt⟩ (.ok items) pfx 0
      = dirLines ⟨inc, some 0, shS, fmt⟩ pfx 0
          ((items.filterMap entryDir?).insertionSort pairLe)
          (if inc then ((items.filterMap entryFile?).insertionSort filePairLe).isEmpty
           else true)
        ++ (if inc then
            fileLines ⟨inc, some 0, shS, fmt⟩ pfx 0
              ((items.filterMap entryFile?).insertionSort filePairLe)
          else []) := by
  rw [scanLines]
  cases inc with
  | true =>
    rw [em_sub_ok_inc_raw ⟨true, some 0, shS, fmt⟩ items pfx 0 0 rfl rfl]
    rw [em_dirs_flat ⟨true, some 0, shS, fmt⟩ rfl, scanFiles_none_lines]
    simp
  | false =>
    rw [em_sub_ok_noinc_raw ⟨false, some 0, shS, fmt⟩ items pfx 0 0 rfl rfl]
    rw [em_dirs_flat ⟨false, some 0, shS, fmt⟩ rfl]
    simp

/-- C2: `maxDepth=N` emits exactly the lines of the unlimited scan at depths
`0..N` — in particular nothing at level `N+1`, not even an `[Access Denied]`
marker for an unreadable directory there (the depth guard returns before
`os.listdir` is attempted) — and `maxDepth=0` emits exactly the root's direct
children (the sorted directory partition followed, when files are included,
by the sorted file partition). -/
theorem claim_C2_maxDepth (inc shS : Bool) (fmt : String) (N : ℕ) (s : Sub)
    (pfx : Chars) (d : ℕ) (items : List Entry) :
    scanLines ⟨inc, some N, shS, fmt⟩ s pfx d
      = (scanLines ⟨inc, none, shS, fmt⟩ s pfx d).filter
          (fun l => decide (lineDepth l ≤ N))
    ∧ (∀ l ∈ scanLines ⟨inc, some N, shS, fmt⟩ s pfx d, lineDepth l ≤ N)
    ∧ scanLines ⟨inc, some 0, shS, fmt⟩ (.ok items) pfx 0
      = dirLines ⟨inc, some 0, shS, fmt⟩ pfx 0
          ((items.filterMap entryDir?).insertionSort pairLe)
          (if inc then ((items.filterMap entryFile?).insertionSort filePairLe).isEmpty
           else true)
        ++ (if inc then
            fileLines ⟨inc, some 0, shS, fmt⟩ pfx 0
              ((items.filterMap entryFile?).insertionSort filePairLe)
          else []) := by
  have hfilter := scan_maxDepth_filter inc shS fmt N (.sub s) pfx d ⟨[], 0⟩ 0 0 trivial
  refine ⟨hfilter, ?_, scan_flat inc shS fmt items pfx⟩
  intro l hl
  rw [scanLines] at hl
  rw [hfilter] at hl
  have := List.of_mem_filter hl
  simpa using this


end FolderTreeViewer
namespace FolderTreeViewer

lemma fileLines_filter_self (o : ScanOpts) (pfx : Chars) (d : ℕ)
    (fls : List (String × ℕ)) :
    (fileLines o pfx d fls).filter (fun l => decide (lineDepth l = d))
      = fileLines o pfx d fls := by
  rw [List.filter_eq_self]
  intro l hl
  rw [fileLines_depth o pfx d fls l hl]
  simp

lemma em_dirs_filter_level (o : ScanOpts) :
    ∀ (ds : List (String × Sub)) (fe : Bool) (pfx : Chars) (d : ℕ) (c : ℕ),
      ((scanGo none o (.dirs ds fe) pfx d ⟨[], c⟩).lines).filter
          (fun l => decide (lineDepth l = d))
        = dirLines o pfx d ds fe := by
  intro ds
  induction ds with
  | nil => intro fe pfx d c; rw [em_dirs_nil]; rfl
  | cons p rest ih =>
    intro fe pfx d c
    obtain ⟨n, sub⟩ := p
    rw [em_dirs_cons_raw, List.filter_cons]
    have hdec : decide (lineDepth (TreeLine.entry pfx (rest.isEmpty && fe) n true
        (sizeAnnot o (subSize sub)) d) = d) = true := by
      simp [lineDepth]
    simp only [hdec, if_true]
    rw [List.filter_append]
    have hsub : ((scanGo none o (.sub sub)
        (pfx ++ (if rest.isEmpty && fe then blankSeg else barSeg)) (d + 1)
        ⟨[], c + 1⟩).lines).filter (fun l => decide (lineDepth l = d)) = [] := by
      rw [List.filter_eq_nil_iff]
      intro l hl
      have := emitted_depth_ge o _ _ (d + 1) ⟨[], 0⟩ _ l hl
      simp only [decide_eq_true_eq]
      omega
    rw [hsub, ih fe pfx d _]
    rfl

lemma level_lines (o : ScanOpts) (items : List Entry) (pfx : Chars) (d : ℕ) (c : ℕ)
    (hd : depthExceeded o.maxDepth d = false) :
    ((scanGo none o (.sub (.ok items)) pfx d ⟨[], c⟩).lines).filter
        (fun l => decide (lineDepth l = d))
      = dirLines o pfx d ((items.filterMap entryDir?).insertionSort pairLe)
          (if o.includeFiles
           then ((items.filterMap entryFile?).insertionSort filePairLe).isEmpty
           else true)
        ++ (if o.includeFiles then
            fileLines o pfx d ((items.filterMap entryFile?).insertionSort filePairLe)
          else []) := by
  by_cases hi : o.includeFiles = true
  · rw [em_sub_ok_inc_raw o items pfx d c hd hi, List.filter_append,
      em_dirs_filter_level, scanFiles_none_lines, fileLines_filter_self]
    simp [hi]
  · have hi' : o.includeFiles = false := by simpa using hi
    rw [em_sub_ok_noinc_raw o items pfx d c hd hi', em_dirs_filter_level]
    simp [hi']

lemma dirLines_names (o : ScanOpts) (pfx : Chars) (d : ℕ) :
    ∀ (ds : List (String × Sub)) (fe : Bool),
      (dirLines o pfx d ds fe).map lineName = ds.map Prod.fst := by
  intro ds
  induction ds with
  | nil => intro fe; rfl
  | cons p rest ih =>
    intro fe
    obtain ⟨n, sub⟩ := p
    rw [dirLines, List.map_cons, List.map_cons, ih fe]
    rfl

lemma fileLines_names (o : ScanOpts) (pfx : Chars) (d : ℕ) :
    ∀ (fls : List (String × ℕ)),
      (fileLines o pfx d fls).map lineName = fls.map Prod.fst := by
  intro fls
  induction fls with
  | nil => rfl
  | cons p rest ih =>
    obtain ⟨n, sz⟩ := p
    rw [fileLines, List.map_cons, List.map_cons, ih]
    rfl

lemma dirLines_isDir (o : ScanOpts) (pfx : Chars) (d : ℕ) :
    ∀ (ds : List (String × Sub)) (fe : Bool) (l : TreeLine),
      l ∈ dirLines o pfx d ds fe → lineIsDir l = true := by
  intro ds
  induction ds with
  | nil => intro fe l hl; simp [dirLines] at hl
  | cons p rest ih =>
    intro fe l hl
    obtain ⟨n, sub⟩ := p
    rcases List.mem_cons.mp hl with rfl | hl'
    · rfl
    · exact ih fe l hl'

lemma fileLines_isDir (o : ScanOpts) (pfx : Chars) (d : ℕ) :
    ∀ (fls : List (String × ℕ)) (l : TreeLine),
      l ∈ fileLines o pfx d fls → lineIsDir l = false := by
  intro fls
  induction fls with
  | nil => intro l hl; simp [fileLines] at hl
  | cons p rest ih =>
    intro l hl
    obtain ⟨n, sz⟩ := p
    rcases List.mem_cons.mp hl with rfl | hl'
    · rfl
    · exact ih l hl'

lemma sorted_insertionSort_fst_dirs (l : List (String × Sub)) :
    List.Sorted (· ≤ ·) ((l.insertionSort pairLe).map Prod.fst) := by
  have h := List.sorted_insertionSort pairLe l
  exact List.Pairwise.map Prod.fst (fun a b hab => hab) h

lemma sorted_insertionSort_fst_files (l : List (String × ℕ)) :
    List.Sorted (· ≤ ·) ((l.insertionSort filePairLe).map Prod.fst) := by
  have h := List.sorted_insertionSort filePairLe l
  exact List.Pairwise.map Prod.fst (fun a b hab => hab) h

end FolderTreeViewer
namespace FolderTreeViewer

lemma dirLines_eq_nil (o : ScanOpts) (pfx : Chars) (d : ℕ)
    (ds : List (String × Sub)) (fe : Bool) :
    dirLines o pfx d ds fe = [] ↔ ds = [] := by
  cases ds with
  | nil => simp [dirLines]
  | cons p rest => obtain ⟨n, sub⟩ := p; simp [dirLines]

lemma fileLines_eq_nil (o : ScanOpts) (pfx : Chars) (d : ℕ)
    (fls : List (String × ℕ)) :
    fileLines o pfx d fls = [] ↔ fls = [] := by
  cases fls with
  | nil => simp [fileLines]
  | cons p rest => obtain ⟨n, sz⟩ := p; simp [fileLines]

lemma corner_last_files (o : ScanOpts) (pfx : Chars) (d : ℕ) :
    ∀ (fls : List (String × ℕ)),
      (∀ l ∈ (fileLines o pfx d fls).dropLast, lineIsLast l = false)
      ∧ (∀ l, (fileLines o pfx d fls).getLast? = some l → lineIsLast l = true) := by
  intro fls
  induction fls with
  | nil =>
    constructor
    · intro l hl; simp [fileLines] at hl
    · intro l hl; simp [fileLines] at hl
  | cons p rest ih =>
    obtain ⟨n, sz⟩ := p
    cases rest with
    | nil =>
      constructor
      · intro l hl; simp [fileLines] at hl
      · intro l hl
        rw [show fileLines o pfx d [(n, sz)]
            = [.entry pfx true n false (sizeAnnot o sz) d] from rfl] at hl
        simp at hl
        subst hl
        rfl
    | cons q rs =>
      have hexp : fileLines o pfx d ((n, sz) :: q :: rs)
          = .entry pfx false n false (sizeAnnot o sz) d :: fileLines o pfx d (q :: rs) := by
        rw [fileLines]
        rfl
      have htail : fileLines o pfx d (q :: rs) ≠ [] := by
        rw [Ne, fileLines_eq_nil]
        simp
      constructor
      · intro l hl
        rw [hexp, List.dropLast_cons_of_ne_nil htail] at hl
        rcases List.mem_cons.mp hl with rfl | hl'
        · rfl
        · exact ih.1 l hl'
      · intro l hl
        rw [hexp] at hl
        obtain ⟨m, ms, hms⟩ : ∃ m ms, fileLines o pfx d (q :: rs) = m :: ms := by
          cases hq : fileLines o pfx d (q :: rs) with
          | nil => exact absurd hq htail
          | cons m ms => exact ⟨m, ms, rfl⟩
        rw [hms, List.getLast?_cons_cons] at hl
        apply ih.2
        rw [hms]
        exact hl

lemma corner_last (o : ScanOpts) (pfx : Chars) (d : ℕ) :
    ∀ (ds : List (String × Sub)) (fls : List (String × ℕ)) (fe : Bool),
      fe = fls.isEmpty →
      (∀ l ∈ (dirLines o pfx d ds fe ++ fileLines o pfx d fls).dropLast,
        lineIsLast l = false)
      ∧ (∀ l, (dirLines o pfx d ds fe ++ fileLines o pfx d fls).getLast? = some l →
          lineIsLast l = true) := by
  intro ds
  induction ds with
  | nil =>
    intro fls fe hfe
    constructor
    · intro l hl
      rw [show dirLines o pfx d [] fe = [] from rfl, List.nil_append] at hl
      exact (corner_last_files o pfx d fls).1 l hl
    · intro l hl
      rw [show dirLines o pfx d [] fe = [] from rfl, List.nil_append] at hl
      exact (corner_last_files o pfx d fls).2 l hl
  | cons p rest ih =>
    intro fls fe hfe
    obtain ⟨n, sub⟩ := p
    have hexp : dirLines o pfx d ((n, sub) :: rest) fe ++ fileLines o pfx d fls
        = .entry pfx (rest.isEmpty && fe) n true (sizeAnnot o (subSize sub)) d
          :: (dirLines o pfx d rest fe ++ fileLines o pfx d fls) := by
      rw [dirLines]
      rfl
    by_cases hT : (dirLines o pfx d rest fe ++ fileLines o pfx d fls) = []
    · have hrest : rest = [] := by
        rcases List.append_eq_nil.mp hT with ⟨h1, -⟩
        exact (dirLines_eq_nil o pfx d rest fe).mp h1
      have hfls : fls = [] := by
        rcases List.append_eq_nil.mp hT with ⟨-, h2⟩
        exact (fileLines_eq_nil o pfx d fls).mp h2
      have hfe' : fe = true := by rw [hfe, hfls]; rfl
      constructor
      · intro l hl
        rw [hexp, hT] at hl
        simp at hl
      · intro l hl
        rw [hexp, hT] at hl
        simp at hl
        subst hl
        simp [lineIsLast, hrest, hfe']
    · have hlastF : (rest.isEmpty && fe) = false := by
        cases hr : rest with
        | nil =>
          have hfls : fls ≠ [] := by
            intro hcon
            apply hT
            rw [hr]
            rw [show dirLines o pfx d [] fe = [] from rfl, List.nil_append,
              (fileLines_eq_nil o pfx d fls).mpr hcon]
          have hie : fls.isEmpty = false := by
            cases fls with
            | nil => exact absurd rfl hfls
            | cons a b => rfl
          rw [hfe, hie]
          simp
        | cons a b => simp
      constructor
      · intro l hl
        rw [hexp, List.dropLast_cons_of_ne_nil hT] at hl
        rcases List.mem_cons.mp hl with rfl | hl'
        · simp [lineIsLast, hlastF]
        · exact (ih fls fe hfe).1 l hl'
      · intro l hl
        rw [hexp] at hl
        obtain ⟨m, ms, hms⟩ : ∃ m ms,
            (dirLines o pfx d rest fe ++ fileLines o pfx d fls) = m :: ms := by
          cases hq : (dirLines o pfx d rest fe ++ fileLines o pfx d fls) with
          | nil => exact absurd hq hT
          | cons m ms => exact ⟨m, ms, rfl⟩
        rw [hms, List.getLast?_cons_cons] at hl
        apply (ih fls fe hfe).2
        rw [hms]
        exact hl

end FolderTreeViewer
namespace FolderTreeViewer

lemma last_dir_iff (o : ScanOpts) (pfx : Chars) (d : ℕ) (ds : List (String × Sub))
    (fls : List (String × ℕ)) (fe : Bool) :
    ∀ l, (dirLines o pfx d ds fe ++ fileLines o pfx d fls).getLast? = some l →
      (lineIsDir l = true ↔ fls = []) := by
  intro l hl
  cases hfls : fls with
  | nil =>
    subst hfls
    rw [show fileLines o pfx d [] = [] from rfl, List.append_nil] at hl
    obtain ⟨hne, heq⟩ := List.mem_getLast?_eq_getLast (show l ∈ _ from hl)
    have hm : l ∈ dirLines o pfx d ds fe := heq ▸ List.getLast_mem hne
    simp [dirLines_isDir o pfx d ds fe l hm]
  | cons q rs =>
    subst hfls
    have hne : fileLines o pfx d (q :: rs) ≠ [] := by
      rw [Ne, fileLines_eq_nil]
      simp
    rw [List.getLast?_append_of_ne_nil _ hne] at hl
    obtain ⟨hne2, heq⟩ := List.mem_getLast?_eq_getLast (show l ∈ _ from hl)
    have hm : l ∈ fileLines o pfx d (q :: rs) := heq ▸ List.getLast_mem hne2
    simp [fileLines_isDir o pfx d _ l hm]

/-- C3: at each level of the rendered output, the parent's entry lines are
the sorted directory partition followed by the sorted file partition, the
directory lines all carry the trailing slash and the file lines do not, both
partitions are sorted lexicographically by name, the corner connector `└── `
goes to exactly the final entry (every earlier entry gets `├── `), and that
final entry is a directory line precisely when the file partition is empty. -/
theorem claim_C3_ordering (o : ScanOpts) (items : List Entry) (pfx : Chars) (d : ℕ)
    (hd : depthExceeded o.maxDepth d = false) :
    ((scanLines o (.ok items) pfx d).filter (fun l => decide (lineDepth l = d))
      = dirLines o pfx d ((items.filterMap entryDir?).insertionSort pairLe)
          (if o.includeFiles
           then ((items.filterMap entryFile?).insertionSort filePairLe).isEmpty
           else true)
        ++ (if o.includeFiles then
            fileLines o pfx d ((items.filterMap entryFile?).insertionSort filePairLe)
          else []))
    ∧ List.Sorted (· ≤ ·)
        ((dirLines o pfx d ((items.filterMap entryDir?).insertionSort pairLe)
          (if o.includeFiles
           then ((items.filterMap entryFile?).insertionSort filePairLe).isEmpty
           else true)).map lineName)
    ∧ List.Sorted (· ≤ ·)
        ((fileLines o pfx d
          ((items.filterMap entryFile?).insertionSort filePairLe)).map lineName)
    ∧ (∀ l ∈ dirLines o pfx d ((items.filterMap entryDir?).insertionSort pairLe)
          (if o.includeFiles
           then ((items.filterMap entryFile?).insertionSort filePairLe).isEmpty
           else true), lineIsDir l = true)
    ∧ (∀ l ∈ fileLines o pfx d ((items.filterMap entryFile?).insertionSort filePairLe),
        lineIsDir l = false)
    ∧ (∀ l ∈ ((scanLines o (.ok items) pfx d).filter
          (fun l => decide (lineDepth l = d))).dropLast, lineIsLast l = false)
    ∧ (∀ l, ((scanLines o (.ok items) pfx d).filter
          (fun l => decide (lineDepth l = d))).getLast? = some l →
        lineIsLast l = true
        ∧ (o.includeFiles = true →
            (lineIsDir l = true
              ↔ (items.filterMap entryFile?).insertionSort filePairLe = []))) := by
  have hlev : ((scanLines o (.ok items) pfx d).filter (fun l => decide (lineDepth l = d)))
      = dirLines o pfx d ((items.filterMap entryDir?).insertionSort pairLe)
          (if o.includeFiles
           then ((items.filterMap entryFile?).insertionSort filePairLe).isEmpty
           else true)
        ++ (if o.includeFiles then
            fileLines o pfx d ((items.filterMap entryFile?).insertionSort filePairLe)
          else []) := level_lines o items pfx d 0 hd
  have hfe : (if o.includeFiles
      then ((items.filterMap entryFile?).insertionSort filePairLe).isEmpty
      else true)
      = (if o.includeFiles then (items.filterMap entryFile?).insertionSort filePairLe
         else []).isEmpty := by
    by_cases hi : o.includeFiles = true <;> simp [hi]
  have hcorner := corner_last o pfx d ((items.filterMap entryDir?).insertionSort pairLe)
    (if o.includeFiles then (items.filterMap entryFile?).insertionSort filePairLe
     else [])
    (if o.includeFiles
     then ((items.filterMap entryFile?).insertionSort filePairLe).isEmpty
     else true) hfe
  have hfiles_shape : (if o.includeFiles then
        fileLines o pfx d ((items.filterMap entryFile?).insertionSort filePairLe)
      else [])
      = fileLines o pfx d
          (if o.includeFiles then (items.filterMap entryFile?).insertionSort filePairLe
           else []) := by
    by_cases hi : o.includeFiles = true <;> simp [hi, fileLines]
  refine ⟨hlev, ?_, ?_, ?_, ?_, ?_, ?_⟩
  · rw [dirLines_names]
    exact sorted_insertionSort_fst_dirs _
  · rw [fileLines_names]
    exact sorted_insertionSort_fst_files _
  · intro l hl
    exact dirLines_isDir o pfx d _ _ l hl
  · intro l hl
    exact fileLines_isDir o pfx d _ l hl
  · intro l hl
    rw [hlev, hfiles_shape] at hl
    exact hcorner.1 l hl
  · intro l hl
    rw [hlev, hfiles_shape] at hl
    refine ⟨hcorner.2 l hl, ?_⟩
    intro hi
    have := last_dir_iff o pfx d ((items.filterMap entryDir?).insertionSort pairLe)
      (if o.includeFiles then (items.filterMap entryFile?).insertionSort filePairLe
       else [])
      (if o.includeFiles
       then ((items.filterMap entryFile?).insertionSort filePairLe).isEmpty
       else true) l hl
    rw [this]
    simp [hi]

end FolderTreeViewer
namespace FolderTreeViewer

theorem claim_C3_witness :
    depthExceeded (ScanOpts.mk true none false "auto").maxDepth 0 = false
    ∧ ((scanLines ⟨true, none, false, "auto"⟩
          (.ok [Entry.dir "a" [], Entry.file "b" 5]) [] 0).filter
        (fun l => decide (lineDepth l = 0))).map lineName = ["a", "b"] :=
  ⟨rfl, by
    have h := (claim_C3_ordering ⟨true, none, false, "auto"⟩
      [Entry.dir "a" [], Entry.file "b" 5] [] 0 rfl).1
    rw [h]
    rfl⟩

end FolderTreeViewer
namespace FolderTreeViewer

lemma stopBit_none (c : ℕ) : stopBit none c = false := rfl

lemma scanFiles_stop (stopAt : Option ℕ) (o : ScanOpts) (fls : List (String × ℕ))
    (pfx : Chars) (d : ℕ) (st : ScanSt) (h : stopBit stopAt st.checks = true) :
    (scanFiles stopAt o fls pfx d st).lines = st.lines
    ∧ st.checks ≤ (scanFiles stopAt o fls pfx d st).checks := by
  cases fls with
  | nil => exact ⟨rfl, le_refl _⟩
  | cons p rest =>
    obtain ⟨n, sz⟩ := p
    rw [scanFiles, checkStop_eq]
    simp only [h, if_true]
    exact ⟨trivial, Nat.le_succ _⟩

lemma scanGo_stop (stopAt : Option ℕ) (o : ScanOpts) (j : Job)
    (pfx : Chars) (d : ℕ) (st : ScanSt) (h : stopBit stopAt st.checks = true) :
    (scanGo stopAt o j pfx d st).lines = st.lines
    ∧ st.checks ≤ (scanGo stopAt o j pfx d st).checks := by
  cases j with
  | sub s =>
    rw [scanGo_sub_stop stopAt o s pfx d st h]
    exact ⟨rfl, Nat.le_succ _⟩
  | dirs ds fe =>
    cases ds with
    | nil =>
      rw [scanGo_dirs_nil]
      exact ⟨rfl, le_refl _⟩
    | cons p rest =>
      obtain ⟨n, sub⟩ := p
      rw [scanGo_dirs_cons_stop stopAt o n sub rest fe pfx d st h]
      exact ⟨rfl, Nat.le_succ _⟩

lemma scanFiles_cancel (k : ℕ) (o : ScanOpts) :
    ∀ (fls : List (String × ℕ)) (pfx : Chars) (d : ℕ) (st : ScanSt),
      scanFiles (some k) o fls pfx d st = scanFiles none o fls pfx d st
      ∨ (k ≤ (scanFiles (some k) o fls pfx d st).checks
         ∧ (scanFiles (some k) o fls pfx d st).lines
            <+: (scanFiles none o fls pfx d st).lines) := by
  intro fls
  induction fls with
  | nil => intro pfx d st; exact Or.inl rfl
  | cons p rest ih =>
    intro pfx d st
    obtain ⟨n, sz⟩ := p
    by_cases hb : stopBit (some k) st.checks = true
    · right
      have hfrozen := scanFiles_stop (some k) o ((n, sz) :: rest) pfx d st hb
      have hk : k ≤ st.checks := of_decide_eq_true hb
      refine ⟨le_trans hk hfrozen.2, ?_⟩
      rw [hfrozen.1, scanFiles_lines_split none o _ pfx d st]
      exact List.prefix_append _ _
    · have hb' : stopBit (some k) st.checks = false := by
        simpa using hb
      rw [scanFiles, scanFiles, checkStop_eq, checkStop_eq]
      simp only [hb', stopBit_none, Bool.false_eq_true, if_false]
      exact ih pfx d _

lemma scanGo_cancel (k : ℕ) (o : ScanOpts) :
    ∀ (j : Job) (pfx : Chars) (d : ℕ) (st : ScanSt),
      scanGo (some k) o j pfx d st = scanGo none o j pfx d st
      ∨ (k ≤ (scanGo (some k) o j pfx d st).checks
         ∧ (scanGo (some k) o j pfx d st).lines
            <+: (scanGo none o j pfx d st).lines) := by
  intro j pfx d st
  induction j, pfx, d, st using scanGo.induct
  case stopAt => exact some k
  case o => exact o
  case case1 s pfx d st hc =>
    have hbit : stopBit (some k) st.checks = true := hc
    have hk : k ≤ st.checks := of_decide_eq_true hbit
    right
    rw [scanGo_sub_stop (some k) o s pfx d st hbit,
      scanGo_lines_split none o (.sub s) pfx d st]
    exact ⟨Nat.le_succ_of_le hk, List.prefix_append _ _⟩
  case case2 s pfx d st hc hd =>
    simp only [Bool.not_eq_true] at hc
    have hb : stopBit (some k) st.checks = false := hc
    left
    rw [scanGo_sub_depth (some k) o s pfx d st hb hd,
      scanGo_sub_depth none o s pfx d st rfl hd]
  case case3 pfx d st hc hd =>
    simp only [Bool.not_eq_true] at hc hd
    have hb : stopBit (some k) st.checks = false := hc
    left
    rw [scanGo_sub_denied (some k) o pfx d st hb hd,
      scanGo_sub_denied none o pfx d st rfl hd]
  case case4 pfx d st hc hd m =>
    simp only [Bool.not_eq_true] at hc hd
    have hb : stopBit (some k) st.checks = false := hc
    left
    rw [scanGo_sub_errored (some k) o m pfx d st hb hd,
      scanGo_sub_errored none o m pfx d st rfl hd]
  case case5 pfx d st hc hd items hi ih =>
    simp only [Bool.not_eq_true] at hc hd
    have hb : stopBit (some k) st.checks = false := hc
    rw [scanGo_sub_ok_inc (some k) o items pfx d st hb hd hi,
      scanGo_sub_ok_inc none o items pfx d st rfl hd hi]
    simp only [checkStop_eq] at ih
    rcases ih with h1 | ⟨hk1, hp1⟩
    · rw [h1]
      exact scanFiles_cancel k o _ pfx d _
    · right
      have hbit : stopBit (some k)
          (scanGo (some k) o
            (.dirs ((items.filterMap entryDir?).insertionSort pairLe)
              ((items.filterMap entryFile?).insertionSort filePairLe).isEmpty)
            pfx d ⟨st.lines, st.checks + 1⟩).checks = true := decide_eq_true hk1
      have hf := scanFiles_stop (some k) o
        ((items.filterMap entryFile?).insertionSort filePairLe) pfx d _ hbit
      refine ⟨le_trans hk1 hf.2, ?_⟩
      rw [hf.1, scanFiles_lines_split none o _ pfx d _]
      exact hp1.trans (List.prefix_append _ _)
  case case6 pfx d st hc hd items hi ih =>
    simp only [Bool.not_eq_true] at hc hd hi
    have hb : stopBit (some k) st.checks = false := hc
    rw [scanGo_sub_ok_noinc (some k) o items pfx d st hb hd hi,
      scanGo_sub_ok_noinc none o items pfx d st rfl hd hi]
    simp only [checkStop_eq, List.isEmpty_nil] at ih
    exact ih
  case case7 fe pfx d st =>
    left
    rw [scanGo_dirs_nil, scanGo_dirs_nil]
  case case8 n sub rest fe pfx d st hc =>
    have hbit : stopBit (some k) st.checks = true := hc
    have hk : k ≤ st.checks := of_decide_eq_true hbit
    right
    rw [scanGo_dirs_cons_stop (some k) o n sub rest fe pfx d st hbit,
      scanGo_lines_split none o (.dirs ((n, sub) :: rest) fe) pfx d st]
    exact ⟨Nat.le_succ_of_le hk, List.prefix_append _ _⟩
  case case9 n sub rest fe pfx d st hc ih1 ih2 =>
    simp only [Bool.not_eq_true] at hc
    have hb : stopBit (some k) st.checks = false := hc
    rw [scanGo_dirs_cons (some k) o n sub rest fe pfx d st hb,
      scanGo_dirs_cons none o n sub rest fe pfx d st rfl]
    simp only [checkStop_eq, pushLine, dite_eq_ite] at ih1 ih2
    rcases ih1 with h1 | ⟨hk1, hp1⟩
    · rcases ih2 with h2 | ⟨hk2, hp2⟩
      · left
        rw [h2, h1]
      · right
        refine ⟨hk2, ?_⟩
        rw [← h1]
        exact hp2
    · right
      have hbit : stopBit (some k)
          (scanGo (some k) o (.sub sub)
            (pfx ++ (if rest.isEmpty && fe then blankSeg else barSeg)) (d + 1)
            ⟨st.lines
              ++ [.entry pfx (rest.isEmpty && fe) n true (sizeAnnot o (subSize sub)) d],
             st.checks + 1⟩).checks = true := decide_eq_true hk1
      have hg := scanGo_stop (some k) o (.dirs rest fe) pfx d _ hbit
      refine ⟨le_trans hk1 hg.2, ?_⟩
      rw [hg.1, scanGo_lines_split none o (.dirs rest fe) pfx d _]
      exact hp1.trans (List.prefix_append _ _)

end FolderTreeViewer
namespace FolderTreeViewer

/-- C7: when the cancellation signal is set mid-walk (the walk's own clock
reaches the cancellation instant `k`), the thread reports the distinct
"Scan cancelled" status instead of the completion status, never invokes the
result callback (the partial text is discarded), the partial line list is a
prefix of what the uncancelled walk would have produced, and from the final
state onward any further walking emits no lines at all. -/
theorem claim_C7_cancelled_scan (k : ℕ) (o : ScanOpts) (root : Sub)
    (hk : k ≤ (scanGo (some k) o (.sub root) [] 0 ⟨[], 0⟩).checks) :
    (runScanThread (some k) o root).statuses
        = ["Scanning folder structure...", "Scan cancelled"]
    ∧ (runScanThread (some k) o root).callbackResult = none
    ∧ (runScanThread (some k) o root).finalSt.lines
        <+: (runScanThread none o root).finalSt.lines
    ∧ ∀ (j : Job) (pfx : Chars) (d : ℕ),
        (scanGo (some k) o j pfx d (runScanThread (some k) o root).finalSt).lines
          = (runScanThread (some k) o root).finalSt.lines := by
  have hbit : stopBit (some k)
      (scanGo (some k) o (.sub root) [] 0 ⟨[], 0⟩).checks = true := decide_eq_true hk
  have hcan : runScanThread (some k) o root
      = ⟨["Scanning folder structure...", "Scan cancelled"], none,
         ⟨(scanGo (some k) o (.sub root) [] 0 ⟨[], 0⟩).lines,
          (scanGo (some k) o (.sub root) [] 0 ⟨[], 0⟩).checks + 1⟩⟩ := by
    rw [runScanThread, checkStop_eq]
    simp only [hbit, if_true]
  have hfull : runScanThread none o root
      = ⟨["Scanning folder structure...",
          "Scan complete. Found "
            ++ toString (scanGo none o (.sub root) [] 0 ⟨[], 0⟩).lines.length
            ++ " items."],
         some (renderText (scanGo none o (.sub root) [] 0 ⟨[], 0⟩).lines),
         ⟨(scanGo none o (.sub root) [] 0 ⟨[], 0⟩).lines,
          (scanGo none o (.sub root) [] 0 ⟨[], 0⟩).checks + 1⟩⟩ := by
    rw [runScanThread, checkStop_eq]
    simp only [stopBit_none, Bool.false_eq_true, if_false]
  refine ⟨by rw [hcan], by rw [hcan], ?_, ?_⟩
  · rw [hcan, hfull]
    dsimp only
    rcases scanGo_cancel k o (.sub root) [] 0 ⟨[], 0⟩ with h | ⟨_, hp⟩
    · rw [h]
    · exact hp
  · intro j pfx d
    rw [hcan]
    dsimp only
    have hbit2 : stopBit (some k)
        ((scanGo (some k) o (.sub root) [] 0 ⟨[], 0⟩).checks + 1) = true :=
      decide_eq_true (Nat.le_succ_of_le hk)
    exact (scanGo_stop (some k) o j pfx d _ hbit2).1

theorem claim_C7_witness :
    0 ≤ (scanGo (some 0) ⟨true, none, false, "auto"⟩ (.sub (.ok [])) [] 0 ⟨[], 0⟩).checks
    ∧ (runScanThread (some 0) ⟨true, none, false, "auto"⟩ (.ok [])).statuses
        = ["Scanning folder structure...", "Scan cancelled"]
    ∧ (runScanThread (some 0) ⟨true, none, false, "auto"⟩ (.ok [])).callbackResult
        = none :=
  ⟨Nat.zero_le _,
   (claim_C7_cancelled_scan 0 ⟨true, none, false, "auto"⟩ (.ok []) (Nat.zero_le _)).1,
   (claim_C7_cancelled_scan 0 ⟨true, none, false, "auto"⟩ (.ok []) (Nat.zero_le _)).2.1⟩

end FolderTreeViewer
namespace FolderTreeViewer

/-- C8: a non-blank root path that does not exist or is not a directory makes
`scan_folder` fail up front with the invalid-path status and dialog, without
launching the scanner thread and without producing any traversal lines. -/
theorem claim_C8_invalid_path (p : String) (pe pd : Bool) (root : Sub) (o : ScanOpts)
    (hne : pyStrip p.data ≠ [])
    (h : pe = false ∨ pd = false) :
    (viewerScanFolder p pe pd root o).statuses = ["Invalid folder path."]
    ∧ (viewerScanFolder p pe pd root o).scanStarted = false
    ∧ (viewerScanFolder p pe pd root o).lines = []
    ∧ (viewerScanFolder p pe pd root o).errorDialog
        = some (if pe = false then "The selected folder does not exist."
                else "The selected path is not a folder.") := by
  rcases h with h | h
  · subst h
    rw [viewerScanFolder.eq_def]
    simp [hne]
  · by_cases hpe : pe = false
    · subst hpe
      rw [viewerScanFolder.eq_def]
      simp [hne]
    · have hpe' : pe = true := by
        simpa using hpe
      subst h
      subst hpe'
      rw [viewerScanFolder.eq_def]
      simp [hne]

theorem claim_C8_witness :
    pyStrip "x".data ≠ []
    ∧ ((false : Bool) = false ∨ (false : Bool) = false)
    ∧ (viewerScanFolder "x" false false (.ok []) ⟨true, none, false, "auto"⟩).statuses
        = ["Invalid folder path."]
    ∧ (viewerScanFolder "x" false false (.ok [])
        ⟨true, none, false, "auto"⟩).scanStarted = false :=
  ⟨by decide, Or.inl rfl,
   (claim_C8_invalid_path "x" false false (.ok []) ⟨true, none, false, "auto"⟩
      (by decide) (Or.inl rfl)).1,
   (claim_C8_invalid_path "x" false false (.ok []) ⟨true, none, false, "auto"⟩
      (by decide) (Or.inl rfl)).2.1⟩

end FolderTreeViewer
namespace FolderTreeViewer

lemma pyStrip_eq_self (a z : Char) (mid : Chars)
    (ha : a.isWhitespace = false) (hz : z.isWhitespace = false) :
    pyStrip (a :: (mid ++ [z])) = a :: (mid ++ [z]) := by
  simp [pyStrip, ha, hz, List.dropWhile_cons]

lemma leadingWs_cons (c : Char) (tl : Chars) (hc : c.isWhitespace = false) :
    leadingWs (c :: tl) = 0 := by
  simp [leadingWs, List.takeWhile_cons, hc]

lemma isPrefixOf_append_self (l r : Chars) : l.isPrefixOf (l ++ r) = true := by
  rw [List.isPrefixOf_iff_prefix]
  exact List.prefix_append _ _

lemma connBranch_not_prefix_corner (r : Chars) :
    connBranch.isPrefixOf (connCorner ++ r) = false := rfl

lemma dash_not_prefix_branch (r : Chars) :
    "----".data.isPrefixOf (connBranch ++ r) = false := rfl

lemma dash_not_prefix_corner (r : Chars) :
    "----".data.isPrefixOf (connCorner ++ r) = false := rfl

lemma connBranch_drop4 (r : Chars) : (connBranch ++ r).drop 4 = r := rfl

lemma connCorner_drop4 (r : Chars) : (connCorner ++ r).drop 4 = r := rfl

lemma sizeTailHere_eq_false (s : Chars) (h : s.getLast? ≠ some ']') :
    sizeTailHere s = false := by
  simp only [sizeTailHere]
  split
  next heq =>
    rename_i tl
    by_cases htl : tl = []
    · subst htl
      simp
    · have hsuf : s.drop (s.takeWhile Char.isWhitespace).length <:+ s :=
        List.drop_suffix _ _
      rw [heq] at hsuf
      obtain ⟨p, hp⟩ := hsuf
      have hlast : s.getLast? = tl.getLast? := by
        rw [← hp]
        rw [show ('[' :: tl : Chars) = ['['] ++ tl from rfl]
        rw [← List.append_assoc]
        exact List.getLast?_append_of_ne_nil _ htl
      have hbeq : (tl.getLast? == some ']') = false := by
        rw [← hlast]
        simpa using h
      simp [hbeq]
  next => rfl

lemma sizeMatchStart_none (s : Chars) (h : s.getLast? ≠ some ']') :
    sizeMatchStart s = none := by
  induction s with
  | nil => rfl
  | cons c tl ih =>
    rw [sizeMatchStart]
    rw [sizeTailHere_eq_false _ h]
    simp only [Bool.false_eq_true, if_false]
    cases htl : tl with
    | nil => rfl
    | cons c2 tl2 =>
      rw [← htl]
      rw [ih ?_]
      · rfl
      · rw [htl] at h ⊢
        rwa [List.getLast?_cons_cons] at h

lemma rstripSlash_eq_self (mid : Chars) (z : Char) (hz : z ≠ '/') :
    rstripSlash (mid ++ [z]) = mid ++ [z] := by
  simp [rstripSlash, hz]

lemma rstripSlash_dir (mid : Chars) (z : Char) (hz : z ≠ '/') :
    rstripSlash ((mid ++ [z]) ++ ['/']) = mid ++ [z] := by
  simp [rstripSlash, hz]

lemma setLastChildren_self (acc : List JNode) (hend : endsFlatDir acc) :
    setLastChildren acc [] = acc := by
  induction acc with
  | nil =>
    obtain ⟨m, hm⟩ := hend
    simp at hm
  | cons a tl ih =>
    cases htl : tl with
    | nil =>
      obtain ⟨m, hm⟩ := hend
      rw [htl] at hm
      simp only [List.getLast?_singleton, Option.some.injEq] at hm
      subst hm
      rfl
    | cons b tl2 =>
      subst htl
      rw [setLastChildren]
      · rw [ih ?_]
        obtain ⟨m, hm⟩ := hend
        rw [List.getLast?_cons_cons] at hm
        exact ⟨m, hm⟩
      · intro n t c _ hcontra
        cases hcontra

end FolderTreeViewer
namespace FolderTreeViewer

lemma goodName_unpack (n : String) (hg : goodName n = true) :
    n.data ≠ [] ∧ (∀ c ∈ n.data, ¬ c = '/') ∧ lastNonWs n.data = true
      ∧ sizeMatchStart n.data = none := by
  simpa [goodName, Bool.and_eq_true, and_assoc, List.all_eq_true,
    Option.isNone_iff_eq_none] using hg

lemma jsonLineStep_flat (st : Frame × List Frame) (b : Bool) (n : String)
    (isDir : Bool) (d : ℕ) (acc : List JNode) (hg : goodName n = true)
    (hpop : popFrames 0 st.1 st.2 = ((acc, 0), [])) :
    jsonLineStep st (renderLine (.entry [] b n isDir [] d))
      = if isDir then (([], 4), [(acc ++ [flatNode n isDir], 0)])
        else ((acc ++ [flatNode n isDir], 0), []) := by
  obtain ⟨hne, hslash, hlnw, hsize⟩ := goodName_unpack n hg
  obtain ⟨mid, z, hnz⟩ := (List.eq_nil_or_concat n.data).resolve_left hne
  rw [List.concat_eq_append] at hnz
  have hzmem : z ∈ n.data := by
    rw [hnz]
    simp
  have hzne : z ≠ '/' := hslash z hzmem
  have hzws : z.isWhitespace = false := by
    rw [hnz] at hlnw
    simp only [lastNonWs, List.getLast?_concat] at hlnw
    simpa using hlnw
  cases isDir with
  | true =>
    have hgl : ((n.data ++ ['/']).getLast? == some '/') = true := by
      rw [List.getLast?_concat]
      rfl
    have hsts : stripSizeTail (n.data ++ ['/']) = n.data ++ ['/'] := by
      rw [stripSizeTail, sizeMatchStart_none]
      rw [List.getLast?_concat]
      decide
    have hrs : rstripSlash (n.data ++ ['/']) = n.data := by
      rw [hnz]
      exact rstripSlash_dir mid z hzne
    cases b with
    | false =>
      have hline0 : renderLine (TreeLine.entry [] false n true [] d)
          = connBranch ++ (n.data ++ ['/']) := by
        simp [renderLine]
      have hstrip : pyStrip (connBranch ++ (n.data ++ ['/']))
          = connBranch ++ (n.data ++ ['/']) := by
        rw [hnz]
        exact pyStrip_eq_self '├' '/' ('─' :: '─' :: ' ' :: (mid ++ [z]))
          (by decide) (by decide)
      have hws0 : leadingWs (connBranch ++ (n.data ++ ['/'])) = 0 :=
        leadingWs_cons '├' _ (by decide)
      have hnn : ¬ (connBranch ++ (n.data ++ ['/'])) = [] := by
        simp [connBranch]
      rw [hline0]
      simp only [jsonLineStep]
      rw [if_neg (by rw [hstrip]; exact hnn)]
      simp only [hstrip, hws0, hgl, hsts, hrs, isPrefixOf_append_self,
        connBranch_drop4, hpop, flatNode, eq_self_iff_true, if_true]
    | true =>
      have hline0 : renderLine (TreeLine.entry [] true n true [] d)
          = connCorner ++ (n.data ++ ['/']) := by
        simp [renderLine]
      have hstrip : pyStrip (connCorner ++ (n.data ++ ['/']))
          = connCorner ++ (n.data ++ ['/']) := by
        rw [hnz]
        exact pyStrip_eq_self '└' '/' ('─' :: '─' :: ' ' :: (mid ++ [z]))
          (by decide) (by decide)
      have hws0 : leadingWs (connCorner ++ (n.data ++ ['/'])) = 0 :=
        leadingWs_cons '└' _ (by decide)
      have hnn : ¬ (connCorner ++ (n.data ++ ['/'])) = [] := by
        simp [connCorner]
      rw [hline0]
      simp only [jsonLineStep]
      rw [if_neg (by rw [hstrip]; exact hnn)]
      simp only [hstrip, hws0, hgl, hsts, hrs, isPrefixOf_append_self,
        connBranch_not_prefix_corner, connCorner_drop4, hpop, flatNode,
        eq_self_iff_true, if_true, Bool.false_eq_true, if_false]
  | false =>
    have hgl : (n.data.getLast? == some '/') = false := by
      rw [hnz, List.getLast?_concat, beq_eq_false_iff_ne]
      simpa using hzne
    have hsts : stripSizeTail n.data = n.data := by
      rw [stripSizeTail, hsize]
    have hrs : rstripSlash n.data = n.data := by
      rw [hnz]
      exact rstripSlash_eq_self mid z hzne
    cases b with
    | false =>
      have hline0 : renderLine (TreeLine.entry [] false n false [] d)
          = connBranch ++ n.data := by
        simp [renderLine]
      have hstrip : pyStrip (connBranch ++ n.data) = connBranch ++ n.data := by
        rw [hnz]
        exact pyStrip_eq_self '├' z ('─' :: '─' :: ' ' :: mid) (by decide) hzws
      have hws0 : leadingWs (connBranch ++ n.data) = 0 :=
        leadingWs_cons '├' _ (by decide)
      have hnn : ¬ (connBranch ++ n.data) = [] := by
        simp [connBranch]
      rw [hline0]
      simp only [jsonLineStep]
      rw [if_neg (by rw [hstrip]; exact hnn)]
      simp only [hstrip, hws0, hgl, hsts, hrs, isPrefixOf_append_self,
        connBranch_drop4, hpop, flatNode, eq_self_iff_true, if_true,
        Bool.false_eq_true, if_false]
    | true =>
      have hline0 : renderLine (TreeLine.entry [] true n false [] d)
          = connCorner ++ n.data := by
        simp [renderLine]
      have hstrip : pyStrip (connCorner ++ n.data) = connCorner ++ n.data := by
        rw [hnz]
        exact pyStrip_eq_self '└' z ('─' :: '─' :: ' ' :: mid) (by decide) hzws
      have hws0 : leadingWs (connCorner ++ n.data) = 0 :=
        leadingWs_cons '└' _ (by decide)
      have hnn : ¬ (connCorner ++ n.data) = [] := by
        simp [connCorner]
      rw [hline0]
      simp only [jsonLineStep]
      rw [if_neg (by rw [hstrip]; exact hnn)]
      simp only [hstrip, hws0, hgl, hsts, hrs, isPrefixOf_append_self,
        connBranch_not_prefix_corner, connCorner_drop4, hpop, flatNode,
        eq_self_iff_true, if_true, Bool.false_eq_true, if_false]

end FolderTreeViewer
namespace FolderTreeViewer

lemma popFrames_S1 (acc : List JNode) :
    popFrames 0 ((acc, 0) : Frame) ([] : List Frame) = ((acc, 0), []) := rfl

lemma popFrames_S2 (acc : List JNode) (hend : endsFlatDir acc) :
    popFrames 0 (([], 4) : Frame) [((acc, 0) : Frame)] = ((acc, 0), []) := by
  simp [popFrames, mergeTop, setLastChildren_self acc hend]

lemma collapse_S2 (acc : List JNode) (hend : endsFlatDir acc) :
    collapse (([], 4) : Frame) [((acc, 0) : Frame)] = acc := by
  simp [collapse, mergeTop, setLastChildren_self acc hend]

lemma parse_flat_go :
    ∀ (ls : List TreeLine), (∀ l ∈ ls, flatLineOK l) →
      ∀ (acc : List JNode) (st : Frame × List Frame),
        popFrames 0 st.1 st.2 = ((acc, 0), []) →
        collapse st.1 st.2 = acc →
        parseFrom st (ls.map renderLine) = acc ++ ls.map flatNodeOf := by
  intro ls
  induction ls with
  | nil =>
    intro _ acc st hpop hcol
    simpa [parseFrom] using hcol
  | cons l tl ih =>
    intro hok acc st hpop hcol
    have hl := hok l (List.mem_cons_self l tl)
    cases l with
    | marker p t dd => exact hl.elim
    | entry pfx bb nm isD sz dd =>
      obtain ⟨hpfx, hsz, hgn⟩ := hl
      subst hpfx
      subst hsz
      have hstep := jsonLineStep_flat st bb nm isD dd acc hgn hpop
      rw [List.map_cons]
      have hPF : parseFrom st
            (renderLine (.entry [] bb nm isD [] dd) :: tl.map renderLine)
          = parseFrom (jsonLineStep st (renderLine (.entry [] bb nm isD [] dd)))
              (tl.map renderLine) := rfl
      rw [hPF, hstep]
      cases isD with
      | true =>
        rw [if_pos rfl]
        have hend : endsFlatDir (acc ++ [flatNode nm true]) :=
          ⟨nm.data, by simp [flatNode]⟩
        rw [ih (fun x hx => hok x (List.mem_cons_of_mem _ hx))
          (acc ++ [flatNode nm true]) _ (popFrames_S2 _ hend) (collapse_S2 _ hend)]
        simp [flatNodeOf]
      | false =>
        rw [if_neg (by simp)]
        rw [ih (fun x hx => hok x (List.mem_cons_of_mem _ hx))
          (acc ++ [flatNode nm false]) ((acc ++ [flatNode nm false], 0), [])
          (popFrames_S1 _) rfl]
        simp [flatNodeOf]

lemma dirLines_map_flatNodeOf (o : ScanOpts) (pfx : Chars) (d : ℕ) :
    ∀ (ds : List (String × Sub)) (fe : Bool),
      (dirLines o pfx d ds fe).map flatNodeOf
        = ds.map (fun p => flatNode p.1 true) := by
  intro ds
  induction ds with
  | nil => intro fe; rfl
  | cons p rest ih =>
    intro fe
    obtain ⟨n, sub⟩ := p
    rw [dirLines, List.map_cons, List.map_cons, ih fe]
    rfl

lemma fileLines_map_flatNodeOf (o : ScanOpts) (pfx : Chars) (d : ℕ) :
    ∀ (fls : List (String × ℕ)),
      (fileLines o pfx d fls).map flatNodeOf
        = fls.map (fun p => flatNode p.1 false) := by
  intro fls
  induction fls with
  | nil => rfl
  | cons p rest ih =>
    obtain ⟨n, sz⟩ := p
    rw [fileLines, List.map_cons, List.map_cons, ih]
    rfl

lemma dirLines_flatOK (inc : Bool) (md : Option ℕ) (fmt : String) (d : ℕ) :
    ∀ (ds : List (String × Sub)) (fe : Bool),
      (∀ p ∈ ds, goodName p.1 = true) →
      ∀ l ∈ dirLines ⟨inc, md, false, fmt⟩ [] d ds fe, flatLineOK l := by
  intro ds
  induction ds with
  | nil =>
    intro fe _ l hl
    cases hl
  | cons p rest ih =>
    intro fe hn l hl
    obtain ⟨n, sub⟩ := p
    rw [dirLines] at hl
    rcases List.mem_cons.mp hl with h | h
    · subst h
      exact ⟨rfl, rfl, hn (n, sub) (List.mem_cons_self _ _)⟩
    · exact ih fe (fun q hq => hn q (List.mem_cons_of_mem _ hq)) l h

lemma fileLines_flatOK (inc : Bool) (md : Option ℕ) (fmt : String) (d : ℕ) :
    ∀ (fls : List (String × ℕ)),
      (∀ p ∈ fls, goodName p.1 = true) →
      ∀ l ∈ fileLines ⟨inc, md, false, fmt⟩ [] d fls, flatLineOK l := by
  intro fls
  induction fls with
  | nil =>
    intro _ l hl
    cases hl
  | cons p rest ih =>
    intro hn l hl
    obtain ⟨n, sz⟩ := p
    rw [fileLines] at hl
    rcases List.mem_cons.mp hl with h | h
    · subst h
      exact ⟨rfl, rfl, hn (n, sz) (List.mem_cons_self _ _)⟩
    · exact ih (fun q hq => hn q (List.mem_cons_of_mem _ hq)) l h

lemma skipHeader_eq_self (lines : List Chars)
    (h : ∀ l ∈ lines, "----".data.isPrefixOf l = false) :
    skipHeader lines = lines := by
  rw [skipHeader]
  have hnone : lines.findIdx? (fun l => "----".data.isPrefixOf l) = none := by
    rw [List.findIdx?_eq_none_iff]
    exact h
  rw [hnone]

lemma flat_render_no_dash (l : TreeLine) (hl : flatLineOK l) :
    "----".data.isPrefixOf (renderLine l) = false := by
  cases l with
  | marker p t dd => exact hl.elim
  | entry pfx bb nm isD sz dd =>
    obtain ⟨hpfx, hsz, _⟩ := hl
    subst hpfx
    subst hsz
    cases bb with
    | true => exact dash_not_prefix_corner _
    | false => exact dash_not_prefix_branch _

end FolderTreeViewer
namespace FolderTreeViewer

lemma dirs_names_good (items : List Entry)
    (hnames : ∀ e ∈ items, goodName (entryName e) = true) :
    ∀ p ∈ (items.filterMap entryDir?).insertionSort pairLe, goodName p.1 = true := by
  intro p hp
  have hp2 : p ∈ items.filterMap entryDir? :=
    (List.perm_insertionSort pairLe _).mem_iff.mp hp
  obtain ⟨e, he, hee⟩ := List.mem_filterMap.mp hp2
  cases e with
  | file nm s => simp [entryDir?] at hee
  | dir nm its =>
    simp only [entryDir?, Option.some.injEq] at hee
    rw [← hee]
    exact hnames _ he
  | dirDenied nm =>
    simp only [entryDir?, Option.some.injEq] at hee
    rw [← hee]
    exact hnames _ he
  | dirErrored nm m =>
    simp only [entryDir?, Option.some.injEq] at hee
    rw [← hee]
    exact hnames _ he

lemma files_names_good (items : List Entry)
    (hnames : ∀ e ∈ items, goodName (entryName e) = true) :
    ∀ p ∈ (items.filterMap entryFile?).insertionSort filePairLe,
      goodName p.1 = true := by
  intro p hp
  have hp2 : p ∈ items.filterMap entryFile? :=
    (List.perm_insertionSort filePairLe _).mem_iff.mp hp
  obtain ⟨e, he, hee⟩ := List.mem_filterMap.mp hp2
  cases e with
  | file nm s =>
    simp only [entryFile?, Option.some.injEq] at hee
    rw [← hee]
    exact hnames _ he
  | dir nm its => simp [entryFile?] at hee
  | dirDenied nm => simp [entryFile?] at hee
  | dirErrored nm m => simp [entryFile?] at hee

/-- C1 (amended): the round trip holds for the FLAT rendering — a depth-0,
no-size scan — with losslessly encodable names: parsing the rendered lines
yields exactly one node per entry, the sorted directories (as `directory`
nodes) followed, when files are included, by the sorted files (as `file`
nodes).  The full claim is refuted by `claim_C1_counterexample`: the parser
drops every line carrying a `│` continuation prefix, so nested levels under
a non-last directory are lost. -/
theorem claim_C1_flat_roundtrip (inc : Bool) (fmt : String) (items : List Entry)
    (hnames : ∀ e ∈ items, goodName (entryName e) = true) :
    parseTreeToJson
        ((scanLines ⟨inc, some 0, false, fmt⟩ (.ok items) [] 0).map renderLine)
      = ((items.filterMap entryDir?).insertionSort pairLe).map
          (fun p => flatNode p.1 true)
        ++ (if inc then
            ((items.filterMap entryFile?).insertionSort filePairLe).map
              (fun p => flatNode p.1 false)
          else []) := by
  rw [scan_flat inc false fmt items []]
  set ds := (items.filterMap entryDir?).insertionSort pairLe with hds
  set fls := (items.filterMap entryFile?).insertionSort filePairLe with hfls
  have hflat : ∀ l ∈ (dirLines ⟨inc, some 0, false, fmt⟩ [] 0 ds
      (if inc then fls.isEmpty else true)
      ++ (if inc then fileLines ⟨inc, some 0, false, fmt⟩ [] 0 fls else [])),
      flatLineOK l := by
    intro l hl
    rcases List.mem_append.mp hl with h | h
    · exact dirLines_flatOK inc (some 0) fmt 0 ds _
        (dirs_names_good items hnames) l h
    · rcases Bool.eq_false_or_eq_true inc with hi | hi
      · subst hi
        simp only [reduceIte] at h
        exact fileLines_flatOK true (some 0) fmt 0 fls
          (files_names_good items hnames) l h
      · subst hi
        simp at h
  have hmain := parse_flat_go _ hflat [] (([], 0), []) rfl rfl
  have hdash : ∀ l ∈ (dirLines ⟨inc, some 0, false, fmt⟩ [] 0 ds
      (if inc then fls.isEmpty else true)
      ++ (if inc then fileLines ⟨inc, some 0, false, fmt⟩ [] 0 fls else [])).map
        renderLine,
      "----".data.isPrefixOf l = false := by
    intro l hl
    obtain ⟨t, ht, rfl⟩ := List.mem_map.mp hl
    exact flat_render_no_dash t (hflat t ht)
  have hpt : parseTreeToJson ((dirLines ⟨inc, some 0, false, fmt⟩ [] 0 ds
      (if inc then fls.isEmpty else true)
      ++ (if inc then fileLines ⟨inc, some 0, false, fmt⟩ [] 0 fls else [])).map
        renderLine)
      = parseFrom (([], 0), []) (skipHeader ((dirLines ⟨inc, some 0, false, fmt⟩
          [] 0 ds (if inc then fls.isEmpty else true)
        ++ (if inc then fileLines ⟨inc, some 0, false, fmt⟩ [] 0 fls else [])).map
          renderLine)) := rfl
  rw [hpt, skipHeader_eq_self _ hdash, hmain]
  rw [List.nil_append, List.map_append, dirLines_map_flatNodeOf]
  rcases Bool.eq_false_or_eq_true inc with hi | hi
  · subst hi
    simp only [reduceIte]
    rw [fileLines_map_flatNodeOf]
  · subst hi
    simp

end FolderTreeViewer
namespace FolderTreeViewer

theorem claim_C1_counterexample :
    scanLines ⟨true, none, false, "auto"⟩
        (.ok [.dir "a" [.file "x" 0], .file "b" 5]) [] 0
      = [.entry [] false "a" true [] 0,
         .entry barSeg true "x" false [] 1,
         .entry [] true "b" false [] 0]
    ∧ parseTreeToJson (([TreeLine.entry [] false "a" true [] 0,
         .entry barSeg true "x" false [] 1,
         .entry [] true "b" false [] 0]).map renderLine)
      = [JNode.mk "a".data "directory" (some []),
         JNode.mk "b".data "file" none]
    ∧ parseTreeToJson (([TreeLine.entry [] false "a" true [] 0,
         .entry barSeg true "x" false [] 1,
         .entry [] true "b" false [] 0]).map renderLine)
      ≠ [JNode.mk "a".data "directory" (some [JNode.mk "x".data "file" none]),
         JNode.mk "b".data "file" none] := by
  refine ⟨?_, ?_, ?_⟩
  · simp [scanLines, scanGo, scanFiles, checkStop, pushLine, sizeAnnot,
      entryDir?, entryFile?, depthExceeded, List.filterMap, List.insertionSort,
      List.orderedInsert, subSize]
  · rfl
  · have h1 : parseTreeToJson (([TreeLine.entry [] false "a" true [] 0,
         .entry barSeg true "x" false [] 1,
         .entry [] true "b" false [] 0]).map renderLine)
        = [JNode.mk "a".data "directory" (some []),
           JNode.mk "b".data "file" none] := rfl
    rw [h1]
    simp

end FolderTreeViewer
namespace FolderTreeViewer

theorem claim_C1_witness :
    (∀ e ∈ [Entry.dir "a" [], Entry.file "b" 5], goodName (entryName e) = true)
    ∧ parseTreeToJson ((scanLines ⟨true, some 0, false, "auto"⟩
        (.ok [Entry.dir "a" [], Entry.file "b" 5]) [] 0).map renderLine)
      = (([Entry.dir "a" [], Entry.file "b" 5].filterMap
            entryDir?).insertionSort pairLe).map (fun p => flatNode p.1 true)
        ++ (if true then (([Entry.dir "a" [], Entry.file "b" 5].filterMap
            entryFile?).insertionSort filePairLe).map (fun p => flatNode p.1 false)
          else []) :=
  ⟨by decide,
   claim_C1_flat_roundtrip true "auto" [Entry.dir "a" [], Entry.file "b" 5]
     (by decide)⟩

end FolderTreeViewer
